import Mathlib

/-!
# Verification of the guest social-graph / history / delta-sync core

Shallow embedding of the core logic of the `weeding-pro` repository:

* the `AppState` reducer and the undo/redo history store
  (`src/src/hooks/useUndoRedo.ts`),
* the delta engine (`getDeltas`, `markAsSynced`, `loadState` in the same
  file),
* the social tree builder (`buildSocialTree` in `src/src/lib/export.ts`),
* the delta/full sync-strategy decision (`handleSave` in the event page,
  `src/unnamed/part_004`).

JS artefacts modelled explicitly:

* JS objects are allocated afresh by every reducer branch (object spread /
  literals), so the `===` identity check in the history reducer is modelled
  by `reducerSameRef`;
* `JSON.stringify` depends on key insertion order; for the claims about the
  delta engine's updated-detection we model the object layer (`JObj`) with
  an explicit key order;
* `Map` built from an entry list lets a later entry overwrite an earlier
  one (`jsMapGet` looks up the last binding);
* `Set` iteration follows first-insertion order with deduplication
  (`jsSetOfList`).

Recursive traversals (`calculateLevel` and the influence walk) are embedded
with explicit fuel returning `Option`; fuel sufficiency is proved, which is
exactly the termination content of the source's visited-set guards.
-/

namespace WeedingPro

/-- `ExpenseItem` from `src/src/types.ts`. The source field `include` is a
Lean keyword, rendered here as `include_`. Numeric values are modelled as
integers. -/
structure ExpenseItem where
  id : String
  category : String
  supplier : String
  estimatedValue : Int
  actualValue : Int
  isContracted : Bool
  include_ : Bool
deriving DecidableEq, Repr

/-- `GuestGroup` from `src/src/types.ts`. -/
structure GuestGroup where
  id : String
  name : String
  color : String
deriving DecidableEq, Repr

/-- `Guest` from `src/src/types.ts`. Optional fields (`parentId?`,
`priority?`, `photoUrl?`, `isRoot?`) become `Option`s. -/
structure Guest where
  id : String
  name : String
  groupId : String
  confirmed : Bool
  parentId : Option String
  priority : Option Nat
  photoUrl : Option String
  isRoot : Option Bool
deriving DecidableEq, Repr

/-- `AppState` from `src/src/types.ts`: the unit of undo/redo and sync. -/
structure AppState where
  budgetTotal : Int
  expenses : List ExpenseItem
  guests : List Guest
  guestGroups : List GuestGroup
deriving DecidableEq, Repr

/-- `Action` from `src/src/types.ts`, one constructor per action type. -/
inductive Action where
  | SET_STATE (payload : AppState)
  | UPDATE_BUDGET_TOTAL (payload : Int)
  | ADD_EXPENSE (payload : ExpenseItem)
  | UPDATE_EXPENSE (payload : ExpenseItem)
  | DELETE_EXPENSE (payload : String)
  | ADD_GUEST (payload : Guest)
  | UPDATE_GUEST (payload : Guest)
  | BULK_ADD_GUESTS (payload : List Guest)
  | DELETE_GUEST (payload : String)
  | TOGGLE_GUEST_CONFIRM (payload : String)
  | ADD_GUEST_GROUP (payload : GuestGroup)
  | DELETE_GUEST_GROUP (payload : String)
deriving DecidableEq, Repr

/-- The pure reducer `(AppState, Action) → AppState` of
`src/src/hooks/useUndoRedo.ts`, lines 18–71, translated case by case.
`array.map`/`array.filter`/spread become `List.map`/`List.filter`/append. -/
def reducer (state : AppState) (action : Action) : AppState :=
  match action with
  | .SET_STATE payload => payload
  | .UPDATE_BUDGET_TOTAL payload => { state with budgetTotal := payload }
  | .ADD_EXPENSE payload => { state with expenses := state.expenses ++ [payload] }
  | .UPDATE_EXPENSE payload =>
      { state with expenses := state.expenses.map (fun e => if e.id = payload.id then payload else e) }
  | .DELETE_EXPENSE payload =>
      { state with expenses := state.expenses.filter (fun e => e.id ≠ payload) }
  | .ADD_GUEST payload => { state with guests := state.guests ++ [payload] }
  | .UPDATE_GUEST payload =>
      { state with guests := state.guests.map (fun g => if g.id = payload.id then payload else g) }
  | .BULK_ADD_GUESTS payload => { state with guests := state.guests ++ payload }
  | .DELETE_GUEST payload =>
      { state with guests := state.guests.filter (fun g => g.id ≠ payload) }
  | .TOGGLE_GUEST_CONFIRM payload =>
      { state with guests := state.guests.map (fun g => if g.id = payload then { g with confirmed := !g.confirmed } else g) }
  | .ADD_GUEST_GROUP payload => { state with guestGroups := state.guestGroups ++ [payload] }
  | .DELETE_GUEST_GROUP payload =>
      { state with guestGroups := state.guestGroups.filter (fun g => g.id ≠ payload) }

/-- `HistoryState` from `src/src/hooks/useUndoRedo.ts`, lines 4–8. -/
structure HistoryState where
  past : List AppState
  present : AppState
  future : List AppState
deriving DecidableEq, Repr

/-- The action type of the history reducer (`useReducer` argument),
`src/src/hooks/useUndoRedo.ts`, line 88. -/
inductive HistAction where
  | UNDO
  | REDO
  | ACTION (action : Action)
  | LOAD (state : AppState)
deriving Repr

/-- Models the JS check `newPresent === present` on line 112 of
`src/src/hooks/useUndoRedo.ts`. `===` on objects is reference identity.
Every branch of `reducer` for a value of the `Action` union allocates a new
object: eleven branches build an object literal via spread, and `SET_STATE`
returns `action.payload`, an object constructed by the dispatching caller
(import, template, or server load). The `default` branch, which returns
`state` itself, is unreachable for a well-typed `Action`. Hence the identity
comparison with the pre-existing `present` object is always `false`, even
when the new state is structurally equal to the old one. -/
def reducerSameRef (_state : AppState) (_action : Action) : Bool := false

/-- The history reducer of `src/src/hooks/useUndoRedo.ts`, lines 88–127.
`past.slice(0, len-1)` is `dropLast`, `past[len-1]` is `getLast?`,
`[present, ...future]` is cons, `[...past, present]` is append. The `ACTION`
case suppresses the push exactly when the `===` check fires
(`reducerSameRef`). -/
def historyReducer (current : HistoryState) (action : HistAction) : HistoryState :=
  match action with
  | .UNDO =>
      match current.past.getLast? with
      | none => current
      | some previous =>
          { past := current.past.dropLast
            present := previous
            future := current.present :: current.future }
  | .REDO =>
      match current.future with
      | [] => current
      | next :: newFuture =>
          { past := current.past ++ [current.present]
            present := next
            future := newFuture }
  | .ACTION a =>
      let newPresent := reducer current.present a
      if reducerSameRef current.present a then current
      else
        { past := current.past ++ [current.present]
          present := newPresent
          future := [] }
  | .LOAD s => { past := [], present := s, future := [] }

/-- `execute` dispatches an `ACTION` (lines 138–140). -/
def execute (h : HistoryState) (a : Action) : HistoryState :=
  historyReducer h (.ACTION a)

/-- Sequential execution of a list of actions through the history store. -/
def execAll (h : HistoryState) (acts : List Action) : HistoryState :=
  acts.foldl execute h

/-- Apply one history-reducer action `n` times (used for repeated
`undo()` / `redo()` calls). -/
def applyN (a : HistAction) (h : HistoryState) : Nat → HistoryState
  | 0 => h
  | n + 1 => applyN a (historyReducer h a) n

/-- The successive `present` values pushed onto `past` while executing a
list of actions from state `s`. -/
def presList (s : AppState) : List Action → List AppState
  | [] => []
  | a :: as => s :: presList (reducer s a) as

/-- Lookup in a JS `Map` built with `new Map(entries)`: a later entry with
the same key overwrites an earlier one, so lookup finds the last binding. -/
def jsMapGet {α : Type} (pairs : List (String × α)) (k : String) : Option α :=
  (pairs.reverse.find? (fun p => p.1 == k)).map (·.2)

/-- A JS `Set` built with `new Set(list)`: iteration order is first-insertion
order, with duplicates dropped. -/
def jsSetOfList (l : List String) : List String :=
  l.foldl (fun acc i => if i ∈ acc then acc else acc ++ [i]) []

/-- A primitive JSON value, enough for the entity records of this app. -/
inductive JVal where
  | str (s : String)
  | num (n : Int)
  | boolean (b : Bool)
  | null
deriving DecidableEq, BEq, Repr

/-- A JS object as it exists at runtime: an insertion-ordered list of
key/value pairs. The TypeScript type of an entity constrains the keys but
not their insertion order, which depends on the construction site (server
deserialization vs. local literal). -/
abbrev JObj : Type := List (String × JVal)

/-- Rendering of a primitive JSON value, as `JSON.stringify` does. -/
def renderJVal : JVal → String
  | .str s => "\"" ++ s ++ "\""
  | .num n => toString n
  | .boolean true => "true"
  | .boolean false => "false"
  | .null => "null"

/-- `JSON.stringify` on a flat object: fields are rendered in key insertion
order, so two objects that are equal as key-value maps but were built with
a different key order serialize differently. -/
def jsStringify (o : JObj) : String :=
  "\x7b" ++ String.intercalate "," (o.map (fun kv => "\"" ++ kv.1 ++ "\":" ++ renderJVal kv.2)) ++ "\x7d"

/-- Deep structural equality of two flat JS objects: they denote the same
key-to-value map (key order irrelevant). -/
def structEqJObj (a b : JObj) : Bool :=
  (a.map Prod.fst ++ b.map Prod.fst).all (fun k => jsMapGet a k == jsMapGet b k)

/-- The `id` property of a JS object holding an entity. -/
def jObjId (o : JObj) : String :=
  match jsMapGet o "id" with
  | some (.str s) => s
  | _ => ""

/-- One `created`/`updated`/`deleted` triple of `DeltaChanges`
(`src/src/types.ts`). -/
structure CollectionDelta (α : Type) where
  created : List α
  updated : List α
  deleted : List String
deriving DecidableEq, Repr

/-- `baselineMap.get(id)` where the map is built with
`new Map(list.map(e => [e.id, e]))`. -/
def entityLookup {α : Type} (entId : α → String) (l : List α) (k : String) : Option α :=
  jsMapGet (l.map (fun e => (entId e, e))) k

/-- The per-collection delta loop of `getDeltas`
(`src/src/hooks/useUndoRedo.ts`). The source repeats the identical loop for
guests (lines 175–196), guest groups (lines 199–217) and expenses (lines
220–238); this is that loop, parametric in the entity type, its `id`
accessor and `JSON.stringify`:

* `created`: entities of `current` whose id the baseline id set lacks;
* `updated`: entities of `current` whose id the baseline id set has and
  whose `JSON.stringify` differs from that of the baseline entity with the
  same id (`JSON.stringify(x) !== JSON.stringify(b)`);
* `deleted`: baseline ids absent from the current id set. -/
def collectionDelta {α : Type} (entId : α → String) (stringify : α → String)
    (baselineIds : List String) (baseline current : List α) : CollectionDelta α :=
  let currentIds := current.map entId
  { created := current.filter (fun x => !(baselineIds.contains (entId x)))
    updated := current.filter (fun x =>
        baselineIds.contains (entId x) &&
          match entityLookup entId baseline (entId x) with
          | some b => stringify x != stringify b
          | none => false)
    deleted := baselineIds.filter (fun i => !(currentIds.contains i)) }

/-- The JS object for a `Guest` as the app's own code constructs it: keys
inserted in the declared field order, optional fields left out when
`undefined` (`JSON.stringify` omits `undefined` properties). -/
def guestJObj (g : Guest) : JObj :=
  [("id", .str g.id), ("name", .str g.name), ("groupId", .str g.groupId),
    ("confirmed", .boolean g.confirmed)]
  ++ (match g.parentId with | some p => [("parentId", JVal.str p)] | none => [])
  ++ (match g.priority with | some p => [("priority", JVal.num p)] | none => [])
  ++ (match g.photoUrl with | some u => [("photoUrl", JVal.str u)] | none => [])
  ++ (match g.isRoot with | some b => [("isRoot", JVal.boolean b)] | none => [])

/-- `JSON.stringify` of a guest built in declared field order. -/
def stringifyGuest (g : Guest) : String := jsStringify (guestJObj g)

/-- `JSON.stringify` of a guest group built in declared field order. -/
def stringifyGroup (g : GuestGroup) : String :=
  jsStringify [("id", .str g.id), ("name", .str g.name), ("color", .str g.color)]

/-- `JSON.stringify` of an expense item built in declared field order. -/
def stringifyExpense (e : ExpenseItem) : String :=
  jsStringify [("id", .str e.id), ("category", .str e.category),
    ("supplier", .str e.supplier), ("estimatedValue", .num e.estimatedValue),
    ("actualValue", .num e.actualValue), ("isContracted", .boolean e.isContracted),
    ("include", .boolean e.include_)]

/-- `DeltaChanges` from `src/src/types.ts`. -/
structure DeltaChanges where
  budgetTotal : Option Int
  guests : CollectionDelta Guest
  guestGroups : CollectionDelta GuestGroup
  expenses : CollectionDelta ExpenseItem
deriving DecidableEq, Repr

/-- The three baseline id `Set`s tracked by `baselineIdsRef`
(`src/src/hooks/useUndoRedo.ts`, lines 77–85). -/
structure BaselineIds where
  guests : List String
  guestGroups : List String
  expenses : List String
deriving DecidableEq, Repr

/-- `getDeltas` (`src/src/hooks/useUndoRedo.ts`, lines 162–241): budget
delta plus the three per-collection deltas. -/
def getDeltas (current baseline : AppState) (baselineIds : BaselineIds) : DeltaChanges :=
  { budgetTotal :=
      if current.budgetTotal ≠ baseline.budgetTotal then some current.budgetTotal else none
    guests := collectionDelta Guest.id stringifyGuest baselineIds.guests
        baseline.guests current.guests
    guestGroups := collectionDelta GuestGroup.id stringifyGroup baselineIds.guestGroups
        baseline.guestGroups current.guestGroups
    expenses := collectionDelta ExpenseItem.id stringifyExpense baselineIds.expenses
        baseline.expenses current.expenses }

/-- The id sets captured from a state, as `loadState` and `markAsSynced`
build them with `new Set(state.xs.map(x => x.id))`. -/
def stateIds (s : AppState) : BaselineIds :=
  { guests := jsSetOfList (s.guests.map Guest.id)
    guestGroups := jsSetOfList (s.guestGroups.map GuestGroup.id)
    expenses := jsSetOfList (s.expenses.map ExpenseItem.id) }

/-- The full state of the `useUndoRedo` hook: the two baseline refs plus the
history reducer state. -/
structure HookState where
  baseline : AppState
  baselineIds : BaselineIds
  history : HistoryState
deriving Repr

/-- The operations of the hook that only dispatch to the history reducer:
`execute`, `undo`, `redo` (lines 138–148 of `useUndoRedo.ts`). -/
inductive EditOp where
  | exec (a : Action)
  | undo
  | redo

/-- Dispatch of one edit operation: each of `execute`/`undo`/`redo` only
calls `dispatch`; neither touches `baselineRef` or `baselineIdsRef`. -/
def applyEditOp (st : HookState) (op : EditOp) : HookState :=
  let ha : HistAction :=
    match op with
    | .exec a => .ACTION a
    | .undo => .UNDO
    | .redo => .REDO
  { st with history := historyReducer st.history ha }

/-- `loadState` (lines 150–159): sets the baseline refs to the loaded state
and dispatches `LOAD`. -/
def hookLoadState (st : HookState) (s : AppState) : HookState :=
  { baseline := s, baselineIds := stateIds s, history := historyReducer st.history (.LOAD s) }

/-- `markAsSynced` (lines 261–269): advances the baseline refs to the
current `present`; the history is untouched. -/
def hookMarkAsSynced (st : HookState) : HookState :=
  { st with baseline := st.history.present, baselineIds := stateIds st.history.present }

/-- `getDeltas` as exposed by the hook: diffs the current `present` against
the baseline refs. -/
def hookGetDeltas (st : HookState) : DeltaChanges :=
  getDeltas st.history.present st.baseline st.baselineIds

/-- `totalChanges` as computed by `handleSave` (`src/unnamed/part_004`,
lines 123–127): one for a set budget delta, plus the nine
created/updated/deleted counts of the three collections. -/
def totalChangesOf (delta : DeltaChanges) : Nat :=
  (if delta.budgetTotal.isSome then 1 else 0)
    + delta.guests.created.length + delta.guests.updated.length + delta.guests.deleted.length
    + delta.guestGroups.created.length + delta.guestGroups.updated.length
    + delta.guestGroups.deleted.length
    + delta.expenses.created.length + delta.expenses.updated.length
    + delta.expenses.deleted.length

/-- `totalItems` of `handleSave`: current entity count across the three
collections. -/
def totalItemsOf (state : AppState) : Nat :=
  state.guests.length + state.guestGroups.length + state.expenses.length

/-- The decision variable `useDeltaSync = totalChanges < totalItems * 0.5`.
Both sides are small integers, `totalItems * 0.5` is exact in binary
floating point, so the JS comparison is exactly `2 * totalChanges <
totalItems`. -/
def useDeltaSyncOf (delta : DeltaChanges) (state : AppState) : Bool :=
  2 * totalChangesOf delta < totalItemsOf state

/-- Which transfer `handleSave` performs. -/
inductive SyncTransfer where
  | deltaSync
  | fullSync
  | noTransfer
deriving DecidableEq, Repr

/-- The branch structure of `handleSave` (`src/unnamed/part_004`): delta
sync when `useDeltaSync && totalChanges > 0`, else full sync when
`totalChanges > 0`, else no transfer at all. -/
def syncTransferOf (delta : DeltaChanges) (state : AppState) : SyncTransfer :=
  if useDeltaSyncOf delta state ∧ 0 < totalChangesOf delta then .deltaSync
  else if 0 < totalChangesOf delta then .fullSync
  else .noTransfer

/-- A concrete guest used by counterexamples and witnesses. -/
def cGuest (i : String) : Guest := ⟨i, "g", "", false, none, none, none, none⟩

/-- A concrete guest group used by counterexamples and witnesses. -/
def cGroup (i : String) : GuestGroup := ⟨i, "grp", "#fff"⟩

/-- A concrete expense used by counterexamples and witnesses. -/
def cExpense (i : String) : ExpenseItem := ⟨i, "cat", "sup", 0, 0, false, true⟩

/-- A delta with four collection changes and a set budget delta. -/
def exMixedDelta : DeltaChanges :=
  { budgetTotal := some 1
    guests := ⟨[cGuest "n1"], [cGuest "u1"], ["d1"]⟩
    guestGroups := ⟨[], [], []⟩
    expenses := ⟨[], [], ["d2"]⟩ }

/-- A delta with four collection changes and no budget delta. -/
def exSmallDelta : DeltaChanges :=
  { budgetTotal := none
    guests := ⟨[], [], ["d1", "d2", "d3", "d4"]⟩
    guestGroups := ⟨[], [], []⟩
    expenses := ⟨[], [], []⟩ }

/-- A delta with six collection changes and no budget delta. -/
def exLargeDelta : DeltaChanges :=
  { budgetTotal := none
    guests := ⟨[], [], ["d1", "d2", "d3", "d4", "d5", "d6"]⟩
    guestGroups := ⟨[], [], []⟩
    expenses := ⟨[], [], []⟩ }

/-- A state holding ten entities across the three collections. -/
def exTenItemState : AppState :=
  ⟨0, [cExpense "e1", cExpense "e2"],
    [cGuest "1", cGuest "2", cGuest "3", cGuest "4", cGuest "5"],
    [cGroup "x", cGroup "y", cGroup "z"]⟩

/-- A baseline entity object with keys inserted as `id, name`. -/
def exBaselineObj : JObj := [("id", .str "1"), ("name", .str "A")]

/-- The same entity as `exBaselineObj` (equal key-value map) but with keys
inserted as `name, id`. -/
def exCurrentObj : JObj := [("name", .str "A"), ("id", .str "1")]

/-- JS truthiness of an optional string: `undefined`, `null` and the empty
string are falsy. -/
def strOptTruthy : Option String → Bool
  | none => false
  | some s => !(s == "")

/-- `isGuestRoot` (`src/src/lib/export.ts`, lines 45–51): an explicit
`isRoot` wins; otherwise a guest without a (truthy) `parentId` is a root. -/
def isGuestRoot (guest : Guest) : Bool :=
  match guest.isRoot with
  | some true => true
  | some false => false
  | none => !(strOptTruthy guest.parentId)

/-- `new Map(guests.map(g => [g.id, g]))` (`export.ts`, line 41). -/
def guestById (guests : List Guest) : String → Option Guest :=
  fun k => jsMapGet (guests.map (fun g => (g.id, g))) k

/-- `guest.parentId ? guestById.get(guest.parentId) : null`
(`export.ts`, line 79). -/
def resolveParent (gLookup : String → Option Guest) (guest : Guest) : Option Guest :=
  if strOptTruthy guest.parentId then
    match guest.parentId with
    | some pid => gLookup pid
    | none => none
  else none

/-- `SocialTreeNode` (`export.ts`, lines 28–34). -/
structure SocialTreeNode where
  guest : Guest
  level : Nat
  chain : List String
  childCount : Nat
  isRoot : Bool
deriving DecidableEq, Repr

/-- The `treeNodes` map. `Map.set` overwrites, modelled by prepending the
new binding; `mLookup` finds the most recent binding first. -/
abbrev TreeNodes : Type := List (String × SocialTreeNode)

/-- `treeNodes.get(id)` under the prepend-on-set representation. -/
def mLookup (m : TreeNodes) (k : String) : Option SocialTreeNode :=
  (m.find? (fun p => p.1 == k)).map (·.2)

/-- `calculateLevel` (`export.ts`, lines 54–103), with explicit fuel for the
recursion on the parent chain (`none` = fuel exhausted; fuel sufficiency is
proved below). Order of checks as in the source: the per-call visited set
first (returning the transient root fallback WITHOUT storing it), then the
memo, then the root checks, then recursion on the resolved parent. The
visited set is passed down into the recursive call only, as in the source
(it is not read after the call returns). -/
def calculateLevel (gLookup : String → Option Guest) :
    Nat → List String → TreeNodes → Guest → Option (TreeNodes × SocialTreeNode)
  | 0, _, _, _ => none
  | fuel + 1, visited, memo, guest =>
    if guest.id ∈ visited then some (memo, ⟨guest, 0, [], 0, true⟩)
    else
      let visited' := guest.id :: visited
      match mLookup memo guest.id with
      | some existing => some (memo, existing)
      | none =>
        if isGuestRoot guest then
          let node : SocialTreeNode := ⟨guest, 0, [guest.name], 0, true⟩
          some ((guest.id, node) :: memo, node)
        else
          match resolveParent gLookup guest with
          | none =>
            let node : SocialTreeNode := ⟨guest, 0, [guest.name], 0, true⟩
            some ((guest.id, node) :: memo, node)
          | some parent =>
            match calculateLevel gLookup fuel visited' memo parent with
            | none => none
            | some (memo', parentNode) =>
              let node : SocialTreeNode :=
                ⟨guest, parentNode.level + 1, parentNode.chain ++ [guest.name], 0, false⟩
              some ((guest.id, node) :: memo', node)

/-- First pass of `buildSocialTree` (`export.ts`, line 106):
`guests.forEach(guest => calculateLevel(guest))`, each call with a fresh
visited set, threading the shared memo. -/
def buildLevels (gLookup : String → Option Guest) (fuel : Nat) (guests : List Guest) :
    Option TreeNodes :=
  guests.foldlM (fun memo g => (calculateLevel gLookup fuel [] memo g).map Prod.fst) []

/-- The upward influence walk (`export.ts`, lines 112–127):
`while (currentId && !visited.has(currentId))` — an absent or empty-string
(falsy) id or a revisit ends the loop; a missing tree node breaks; the
found node's `childCount` is incremented; reaching a predicate root breaks
after the increment; otherwise the walk follows the parent's `parentId`. -/
def influenceWalk (gLookup : String → Option Guest) :
    Nat → TreeNodes → Option String → List String → Option TreeNodes
  | 0, _, _, _ => none
  | fuel + 1, memo, currentId, visited =>
    match currentId with
    | none => some memo
    | some cid =>
      if cid = "" then some memo
      else if cid ∈ visited then some memo
      else
        let visited' := cid :: visited
        match mLookup memo cid with
        | none => some memo
        | some node =>
          let memo' := (cid, { node with childCount := node.childCount + 1 }) :: memo
          match gLookup cid with
          | none => influenceWalk gLookup fuel memo' none visited'
          | some parentGuest =>
            if isGuestRoot parentGuest then some memo'
            else influenceWalk gLookup fuel memo' parentGuest.parentId visited'

/-- Second pass of `buildSocialTree` (`export.ts`, lines 109–129): for every
guest with a truthy `parentId` that is not a predicate root, walk up from
its parent with a fresh per-walk visited set. -/
def influencePass (gLookup : String → Option Guest) (fuel : Nat) (guests : List Guest)
    (memo : TreeNodes) : Option TreeNodes :=
  guests.foldlM (fun m g =>
    if strOptTruthy g.parentId && !(isGuestRoot g) then influenceWalk gLookup fuel m g.parentId []
    else some m) memo

/-- `buildSocialTree` (`export.ts`, lines 40–132): both passes, with fuel
`guests.length + 1`, which is proved sufficient below. -/
def buildSocialTree (guests : List Guest) : Option TreeNodes :=
  match buildLevels (guestById guests) (guests.length + 1) guests with
  | none => none
  | some memo => influencePass (guestById guests) (guests.length + 1) guests memo

/-- Number of distinct guest ids not yet in the visited set: the decreasing
measure of both traversals. -/
def unvisCount (guests : List Guest) (visited : List String) : Nat :=
  (((guests.map Guest.id).dedup).filter (fun i => i ∉ visited)).length

/-- Well-formedness of a memo entry: it is keyed by its node's guest id,
that guest comes from the input list, and the stored `isRoot` flag holds
exactly when the guest is a predicate root or its parent reference does not
resolve. -/
def EntryOK (guests : List Guest) (kv : String × SocialTreeNode) : Prop :=
  kv.1 = kv.2.guest.id ∧ kv.2.guest ∈ guests ∧
    kv.2.isRoot = (isGuestRoot kv.2.guest || !((resolveParent (guestById guests) kv.2.guest).isSome))

/-- A guest whose `parentId` is itself: the simplest guest revisited within
its own ancestor-resolution chain. -/
def selfLoopGuest : Guest := ⟨"a", "A", "", false, some "a", none, none, none⟩

/-- The ancestor path of a guest in the sense of the spec (§4.1, §8): the
guest followed by its parents up to and including the nearest root, where a
root is what the builder stores as one — a predicate root or a guest whose
parent reference does not resolve. Fuelled: `none` means the path never
reaches a root within the fuel, which (for fuel `guests.length + 1`) happens
exactly when the parent chain runs into a cycle. -/
def chainList (gLookup : String → Option Guest) : Nat → Guest → Option (List Guest)
  | 0, _ => none
  | fuel + 1, g =>
    match resolveParent gLookup g with
    | none => some [g]
    | some p =>
        if isGuestRoot g then some [g]
        else (chainList gLookup fuel p).map (fun c => g :: c)

/-- The number of parent edges from a guest to its nearest root: the length
of its ancestor path minus one. -/
def edgesToRoot (guests : List Guest) (g : Guest) : Option Nat :=
  (chainList (guestById guests) (guests.length + 1) g).map (fun c => c.length - 1)

/-- A guest list has acyclic parent chains: every guest's ancestor path
reaches a root (within fuel `guests.length + 1`, which bounds every
repeat-free chain). -/
def AcyclicGuests (guests : List Guest) : Prop :=
  ∀ g ∈ guests, (chainList (guestById guests) (guests.length + 1) g).isSome = true

/-- Level/chain correctness of one stored node relative to the spec's
ancestor path: `level + 1` and the stored chain length both equal the
ancestor path length. -/
def NodeChainOK (guests : List Guest) (n : SocialTreeNode) : Prop :=
  ∃ c, chainList (guestById guests) (guests.length + 1) n.guest = some c ∧
    n.level + 1 = c.length ∧ n.chain.length = c.length

/-- Memo entry predicate for the level-correctness invariant. -/
def EntryChainOK (guests : List Guest) (kv : String × SocialTreeNode) : Prop :=
  kv.1 = kv.2.guest.id ∧ kv.2.guest ∈ guests ∧ NodeChainOK guests kv.2

/-- Increment of a node's influence counter, as `node.childCount++` does. -/
def bump1 (n : SocialTreeNode) : SocialTreeNode :=
  { n with childCount := n.childCount + 1 }

/-- Adding `j` to a node's influence counter (the effect of `j` walks). -/
def bumpBy (j : Nat) (n : SocialTreeNode) : SocialTreeNode :=
  { n with childCount := n.childCount + j }

/-- The guard of the influence pass (`export.ts`, line 110):
`guest.parentId && !isGuestRoot(guest)`. -/
def walkCond (g : Guest) : Bool := strOptTruthy g.parentId && !(isGuestRoot g)

/-- The ids whose nodes one influence walk increments, as a pure function of
the guest map (valid when the memo's key set equals the guest id set, which
holds after the first pass): the walk increments each id it visits, stopping
at a falsy id, a revisit, a missing guest, or — after the increment — a
predicate root. -/
def walkIds (gLookup : String → Option Guest) : Nat → Option String → List String → List String
  | 0, _, _ => []
  | fuel + 1, cur, visited =>
    match cur with
    | none => []
    | some cid =>
      if cid = "" then []
      else if cid ∈ visited then []
      else
        match gLookup cid with
        | none => []
        | some pg =>
            if isGuestRoot pg then [cid]
            else cid :: walkIds gLookup fuel pg.parentId (cid :: visited)

/-- What the builder stores as a root: a predicate root, or a guest whose
parent reference does not resolve. -/
def outputRootB (gLookup : String → Option Guest) (g : Guest) : Bool :=
  isGuestRoot g || !((resolveParent gLookup g).isSome)

/-- The guest `g` belongs to the reachable subtree of the root with id
`rid`, per the spec's wording: `g` walks (truthy `parentId`, not a predicate
root), its parent resolves, and the parent's ancestor path reaches the root
`rid`. -/
def attributedTo (guests : List Guest) (rid : String) (g : Guest) : Bool :=
  walkCond g &&
    match resolveParent (guestById guests) g with
    | none => false
    | some p =>
        match chainList (guestById guests) (guests.length + 1) p with
        | none => false
        | some c =>
            match c.getLast? with
            | none => false
            | some x => x.id == rid

/-- A root guest for concrete witnesses. -/
def exRootGuest : Guest := ⟨"r", "R", "", false, none, none, none, none⟩

/-- A guest invited by `exRootGuest`, for concrete witnesses. -/
def exChildGuest : Guest := ⟨"c", "C", "", false, some "r", none, none, none⟩

theorem execute_eq (h : HistoryState) (a : Action) :
    execute h a =
      { past := h.past ++ [h.present], present := reducer h.present a, future := [] } := by
  simp [execute, historyReducer, reducerSameRef]

theorem applyN_succ' (a : HistAction) (h : HistoryState) (n : Nat) :
    applyN a h (n + 1) = historyReducer (applyN a h n) a := by
  induction n generalizing h with
  | zero => rfl
  | succ n ih => rw [applyN, ih, applyN]

theorem presList_length (s : AppState) (acts : List Action) :
    (presList s acts).length = acts.length := by
  induction acts generalizing s with
  | nil => rfl
  | cons a as ih => simp [presList, ih]

theorem execAll_spec (acts : List Action) (h : HistoryState) :
    execAll h acts =
      { past := h.past ++ presList h.present acts
        present := acts.foldl reducer h.present
        future := if acts.isEmpty then h.future else [] } := by
  induction acts generalizing h with
  | nil => simp [execAll, presList]
  | cons a as ih =>
      show execAll (execute h a) as = _
      rw [ih, execute_eq]
      simp [presList]

/-- One `redo()` exactly cancels a preceding `undo()` when the past stack is
non-empty. -/
theorem redo_undo (h : HistoryState) (hne : h.past ≠ []) :
    historyReducer (historyReducer h .UNDO) .REDO = h := by
  rcases List.eq_nil_or_concat h.past with hnil | ⟨l, a, hconcat⟩
  · exact absurd hnil hne
  · obtain ⟨past, present, future⟩ := h
    simp only at hconcat
    subst hconcat
    simp [historyReducer, List.getLast?_concat, List.dropLast_concat]

theorem redo_noop (h : HistoryState) (hf : h.future = []) :
    historyReducer h .REDO = h := by
  obtain ⟨past, present, future⟩ := h
  simp only at hf
  subst hf
  rfl

theorem undo_past_length (n : Nat) :
    ∀ h : HistoryState, n ≤ h.past.length →
      (applyN .UNDO h n).past.length = h.past.length - n := by
  induction n with
  | zero => intro h _; simp [applyN]
  | succ n ih =>
      intro h hle
      obtain ⟨past, present, future⟩ := h
      rcases List.eq_nil_or_concat past with hnil | ⟨l, a, hconcat⟩
      · subst hnil; simp at hle
      · rw [List.concat_eq_append] at hconcat
        subst hconcat
        have hstep : historyReducer ⟨l ++ [a], present, future⟩ .UNDO = ⟨l, a, present :: future⟩ := by
          simp [historyReducer, List.getLast?_concat, List.dropLast_concat]
        have hle' : n ≤ (HistoryState.mk l a (present :: future)).past.length := by
          simp only [List.length_append, List.length_cons, List.length_nil] at hle ⊢
          omega
        rw [applyN, hstep, ih _ hle']
        simp only [List.length_append, List.length_cons, List.length_nil]
        omega

theorem redoN_undoN (n : Nat) :
    ∀ h : HistoryState, n ≤ h.past.length →
      applyN .REDO (applyN .UNDO h n) n = h := by
  induction n with
  | zero => intro h _; rfl
  | succ n ih =>
      intro h hle
      have hlen : (applyN .UNDO h n).past.length = h.past.length - n :=
        undo_past_length n h (Nat.le_of_succ_le hle)
      have hne : (applyN .UNDO h n).past ≠ [] := by
        intro hnil
        rw [hnil] at hlen
        simp at hlen
        omega
      calc applyN .REDO (applyN .UNDO h (n + 1)) (n + 1)
          = applyN .REDO (historyReducer (applyN .UNDO h n) .UNDO) (n + 1) := by
            rw [applyN_succ' .UNDO h n]
        _ = applyN .REDO (historyReducer (historyReducer (applyN .UNDO h n) .UNDO) .REDO) n := rfl
        _ = applyN .REDO (applyN .UNDO h n) n := by rw [redo_undo _ hne]
        _ = h := ih h (Nat.le_of_succ_le hle)

theorem undoN_present (n : Nat) :
    ∀ h : HistoryState, h.past.length = n →
      (applyN .UNDO h n).present = h.past.headD h.present := by
  induction n with
  | zero =>
      intro h hlen
      have : h.past = [] := List.length_eq_zero.mp hlen
      simp [applyN, this]
  | succ n ih =>
      intro h hlen
      obtain ⟨past, present, future⟩ := h
      rcases List.eq_nil_or_concat past with hnil | ⟨l, a, hconcat⟩
      · subst hnil; simp at hlen
      · rw [List.concat_eq_append] at hconcat
        subst hconcat
        have hstep : historyReducer ⟨l ++ [a], present, future⟩ .UNDO = ⟨l, a, present :: future⟩ := by
          simp [historyReducer, List.getLast?_concat, List.dropLast_concat]
        have hl : (HistoryState.mk l a (present :: future)).past.length = n := by
          simp only [List.length_append, List.length_cons, List.length_nil] at hlen ⊢
          omega
        rw [applyN, hstep, ih _ hl]
        cases l <;> simp

/-- CLAIM C4: starting from a history with empty past and future, executing
any sequence of N actions and then calling `undo()` N times returns
`present` to the original pre-sequence state, and then calling `redo()` N
times returns `present` to the post-sequence state. -/
theorem undo_redo_round_trip (s0 : AppState) (acts : List Action) :
    (applyN .UNDO (execAll ⟨[], s0, []⟩ acts) acts.length).present = s0 ∧
    (applyN .REDO (applyN .UNDO (execAll ⟨[], s0, []⟩ acts) acts.length) acts.length).present
      = (execAll ⟨[], s0, []⟩ acts).present := by
  have hspec := execAll_spec acts ⟨[], s0, []⟩
  have hpl : (execAll ⟨[], s0, []⟩ acts).past.length = acts.length := by
    rw [hspec]; simp [presList_length]
  constructor
  · rw [undoN_present acts.length _ hpl, hspec]
    cases acts with
    | nil => simp [presList]
    | cons a as => simp [presList]
  · rw [redoN_undoN acts.length _ (le_of_eq hpl.symm)]

/-- CLAIM C9: every `execute` leaves the history with an empty `future`
stack (the claim's universal part), and in particular after
`execute(a1); execute(a2); undo(); execute(a3)` the future is empty and a
subsequent `redo()` is a no-op. (In this code the `===` no-op suppression
check never fires — see `reducerSameRef` — so the `ACTION` branch always
rebuilds the state with `future: []`.) -/
theorem execute_clears_future (h : HistoryState) (a : Action)
    (s0 : AppState) (a1 a2 a3 : Action) :
    (execute h a).future = [] ∧
    (execute (historyReducer (execAll ⟨[], s0, []⟩ [a1, a2]) .UNDO) a3).future = [] ∧
    historyReducer (execute (historyReducer (execAll ⟨[], s0, []⟩ [a1, a2]) .UNDO) a3) .REDO
      = execute (historyReducer (execAll ⟨[], s0, []⟩ [a1, a2]) .UNDO) a3 := by
  refine ⟨by rw [execute_eq], by rw [execute_eq], ?_⟩
  exact redo_noop _ (by rw [execute_eq])

/-- CLAIM C1 (settled as a code bug): deleting a guest id that does not
occur in `present.guests` does NOT leave the history unchanged. The reducer
returns a freshly-allocated, structurally-identical state, the `===`
suppression check on line 112 of `useUndoRedo.ts` therefore never fires, and
a frame is pushed: `past.length` grows by one and `future` is cleared, while
`present` is (structurally) unchanged. -/
theorem delete_guest_noop_pushes_frame (h : HistoryState) (i : String)
    (hno : ∀ g ∈ h.present.guests, g.id ≠ i) :
    (execute h (.DELETE_GUEST i)).past.length = h.past.length + 1 ∧
    (execute h (.DELETE_GUEST i)).present = h.present ∧
    (execute h (.DELETE_GUEST i)).future = [] := by
  have hfilter : h.present.guests.filter (fun g => g.id ≠ i) = h.present.guests := by
    rw [List.filter_eq_self]
    intro g hg
    simpa using hno g hg
  rw [execute_eq]
  refine ⟨by simp, ?_, rfl⟩
  show reducer h.present (.DELETE_GUEST i) = h.present
  simp only [reducer, hfilter]

/-- Witness for `delete_guest_noop_pushes_frame` at a concrete input:
one guest with id "1", deleting the nonexistent id "zzz". -/
theorem delete_guest_noop_pushes_frame_witness :
    (execute ⟨[], ⟨0, [], [⟨"1", "A", "", false, none, none, none, none⟩], []⟩, []⟩
        (.DELETE_GUEST "zzz")).past.length = 1 ∧
    (execute ⟨[], ⟨0, [], [⟨"1", "A", "", false, none, none, none, none⟩], []⟩, []⟩
        (.DELETE_GUEST "zzz")).present
      = ⟨0, [], [⟨"1", "A", "", false, none, none, none, none⟩], []⟩ ∧
    (execute ⟨[], ⟨0, [], [⟨"1", "A", "", false, none, none, none, none⟩], []⟩, []⟩
        (.DELETE_GUEST "zzz")).future = [] :=
  delete_guest_noop_pushes_frame
    ⟨[], ⟨0, [], [⟨"1", "A", "", false, none, none, none, none⟩], []⟩, []⟩ "zzz"
    (by decide)

theorem length_filter_mono {α : Type} {p q : α → Bool}
    (himp : ∀ x, q x = true → p x = true) :
    ∀ l : List α, (l.filter q).length ≤ (l.filter p).length := by
  intro l
  induction l with
  | nil => simp
  | cons x xs ih =>
      by_cases hq : q x = true
      · rw [List.filter_cons_of_pos hq, List.filter_cons_of_pos (himp x hq)]
        simpa using ih
      · rw [List.filter_cons_of_neg (by simpa using hq)]
        by_cases hp : p x = true
        · rw [List.filter_cons_of_pos hp]
          exact Nat.le_succ_of_le ih
        · rw [List.filter_cons_of_neg (by simpa using hp)]
          exact ih

theorem length_filter_lt_of_mem {α : Type} {p q : α → Bool} {l : List α}
    (himp : ∀ x, q x = true → p x = true) {a : α} (ha : a ∈ l)
    (hpa : p a = true) (hqa : q a = false) :
    (l.filter q).length < (l.filter p).length := by
  induction l with
  | nil => cases ha
  | cons x xs ih =>
      rcases List.mem_cons.mp ha with rfl | hxs
      · rw [List.filter_cons_of_pos hpa, List.filter_cons_of_neg (by simp [hqa])]
        exact Nat.lt_succ_of_le (length_filter_mono himp xs)
      · by_cases hq : q x = true
        · rw [List.filter_cons_of_pos hq, List.filter_cons_of_pos (himp x hq)]
          simpa using ih hxs
        · rw [List.filter_cons_of_neg (by simpa using hq)]
          by_cases hp : p x = true
          · rw [List.filter_cons_of_pos hp]
            exact Nat.lt_succ_of_lt (ih hxs)
          · rw [List.filter_cons_of_neg (by simpa using hp)]
            exact ih hxs

theorem unvisCount_cons_lt {guests : List Guest} {visited : List String} {a : String}
    (ha : a ∈ guests.map Guest.id) (hnv : a ∉ visited) :
    unvisCount guests (a :: visited) < unvisCount guests visited := by
  unfold unvisCount
  apply length_filter_lt_of_mem
  · intro x hx
    simp only [decide_eq_true_eq] at hx ⊢
    intro hmem
    exact hx (List.mem_cons_of_mem _ hmem)
  · exact List.mem_dedup.mpr ha
  · simpa using hnv
  · simp

theorem unvisCount_le (guests : List Guest) (visited : List String) :
    unvisCount guests visited ≤ guests.length := by
  unfold unvisCount
  calc _ ≤ ((guests.map Guest.id).dedup).length := List.length_filter_le _ _
    _ ≤ (guests.map Guest.id).length := (List.dedup_sublist _).length_le
    _ = guests.length := List.length_map _ _

theorem jsMapGet_eq_some {α : Type} {pairs : List (String × α)} {k : String} {v : α}
    (h : jsMapGet pairs k = some v) : (k, v) ∈ pairs := by
  unfold jsMapGet at h
  cases hf : pairs.reverse.find? (fun p => p.1 == k) with
  | none => rw [hf] at h; simp at h
  | some pr =>
      rw [hf] at h
      simp only [Option.map_some', Option.some.injEq] at h
      have hmem : pr ∈ pairs := List.mem_reverse.mp (List.mem_of_find?_eq_some hf)
      have hk : pr.1 = k := by simpa using List.find?_some hf
      have : pr = (k, v) := by
        cases pr with
        | mk a b => simp only at hk h; rw [hk, h]
      rw [← this]
      exact hmem

theorem jsMapGet_isSome_of_mem {α : Type} {pairs : List (String × α)} {k : String} {v : α}
    (h : (k, v) ∈ pairs) : (jsMapGet pairs k).isSome := by
  unfold jsMapGet
  rw [Option.isSome_map']
  rw [List.find?_isSome]
  exact ⟨(k, v), List.mem_reverse.mpr h, by simp⟩

theorem guestById_eq_some {guests : List Guest} {k : String} {g : Guest}
    (h : guestById guests k = some g) : g ∈ guests ∧ g.id = k := by
  have hmem := jsMapGet_eq_some h
  obtain ⟨g', hg', heq⟩ := List.mem_map.mp hmem
  have h2 : g' = g := congrArg Prod.snd heq
  have h1 : g'.id = k := congrArg Prod.fst heq
  subst h2
  exact ⟨hg', h1⟩

theorem guestById_isSome_of_mem {guests : List Guest} {g : Guest} (hg : g ∈ guests) :
    (guestById guests g.id).isSome :=
  jsMapGet_isSome_of_mem (List.mem_map.mpr ⟨g, hg, rfl⟩)

theorem resolveParent_mem {guests : List Guest} {g p : Guest}
    (h : resolveParent (guestById guests) g = some p) : p ∈ guests := by
  unfold resolveParent at h
  split_ifs at h
  cases hpid : g.parentId with
  | none => rw [hpid] at h; simp at h
  | some pid =>
      rw [hpid] at h
      exact (guestById_eq_some h).1

theorem mLookup_eq_some_mem {m : TreeNodes} {k : String} {n : SocialTreeNode}
    (h : mLookup m k = some n) : (k, n) ∈ m := by
  unfold mLookup at h
  cases hf : m.find? (fun p => p.1 == k) with
  | none => rw [hf] at h; simp at h
  | some pr =>
      rw [hf] at h
      simp only [Option.map_some', Option.some.injEq] at h
      have hmem : pr ∈ m := List.mem_of_find?_eq_some hf
      have hk : pr.1 = k := by simpa using List.find?_some hf
      have : pr = (k, n) := by
        cases pr with
        | mk a b => simp only at hk h; rw [hk, h]
      rw [← this]
      exact hmem

theorem mLookup_cons_self {m : TreeNodes} {k : String} {n : SocialTreeNode} :
    mLookup ((k, n) :: m) k = some n := by
  simp [mLookup, List.find?_cons_of_pos]

theorem mLookup_append_isSome {pre m : TreeNodes} {k : String}
    (h : (mLookup m k).isSome) : (mLookup (pre ++ m) k).isSome := by
  unfold mLookup at h ⊢
  rw [Option.isSome_map', List.find?_isSome] at h ⊢
  obtain ⟨x, hx, hp⟩ := h
  exact ⟨x, List.mem_append_right _ hx, hp⟩

theorem mLookup_cons_ne {m : TreeNodes} {k cid : String} {v : SocialTreeNode}
    (h : k ≠ cid) : mLookup ((cid, v) :: m) k = mLookup m k := by
  unfold mLookup
  rw [List.find?_cons_of_neg _ (by simpa using Ne.symm h)]

theorem guestById_self {guests : List Guest} (huniq : (guests.map Guest.id).Nodup)
    {g : Guest} (hg : g ∈ guests) : guestById guests g.id = some g := by
  have hs := guestById_isSome_of_mem hg
  cases hl : guestById guests g.id with
  | none => rw [hl] at hs; simp at hs
  | some g' =>
      obtain ⟨hmem, hid⟩ := guestById_eq_some hl
      have hginj := (List.nodup_map_iff_inj_on (List.Nodup.of_map _ huniq)).mp huniq
      rw [hginj g' hmem g hg hid]

theorem walkIds_not_mem_visited (gLookup : String → Option Guest) :
    ∀ (fuel : Nat) (cur : Option String) (visited : List String) (x : String),
      x ∈ walkIds gLookup fuel cur visited → x ∉ visited := by
  intro fuel
  induction fuel with
  | zero => intro cur visited x hx; simp [walkIds] at hx
  | succ fuel ih =>
      intro cur visited x hx
      cases cur with
      | none => simp [walkIds] at hx
      | some cid =>
          simp only [walkIds] at hx
          by_cases hemp : cid = ""
          · rw [if_pos hemp] at hx; simp at hx
          · rw [if_neg hemp] at hx
            by_cases hvis : cid ∈ visited
            · rw [if_pos hvis] at hx; simp at hx
            · rw [if_neg hvis] at hx
              cases hgl : gLookup cid with
              | none => rw [hgl] at hx; simp at hx
              | some pg =>
                  rw [hgl] at hx
                  simp only at hx
                  by_cases hr : isGuestRoot pg = true
                  · rw [if_pos hr] at hx
                    simp only [List.mem_singleton] at hx
                    subst hx
                    exact hvis
                  · rw [if_neg hr] at hx
                    rcases List.mem_cons.mp hx with rfl | hx'
                    · exact hvis
                    · intro hmem
                      exact ih pg.parentId (cid :: visited) x hx'
                        (List.mem_cons_of_mem _ hmem)

theorem calculateLevel_entries (guests : List Guest) :
    ∀ (fuel : Nat) (visited : List String) (memo memo' : TreeNodes) (g : Guest)
      (n : SocialTreeNode),
      g ∈ guests →
      calculateLevel (guestById guests) fuel visited memo g = some (memo', n) →
      ∃ pre, memo' = pre ++ memo ∧
        ∀ kv ∈ pre, EntryOK guests kv ∧ kv.2.childCount = 0 := by
  intro fuel
  induction fuel with
  | zero =>
      intro visited memo memo' g n _ h
      simp [calculateLevel] at h
  | succ fuel ih =>
      intro visited memo memo' g n hg h
      simp only [calculateLevel] at h
      by_cases hvis : g.id ∈ visited
      · rw [if_pos hvis] at h
        obtain ⟨rfl, rfl⟩ := Prod.ext_iff.mp (Option.some.inj h)
        exact ⟨[], rfl, by simp⟩
      · rw [if_neg hvis] at h
        cases hmemo : mLookup memo g.id with
        | some existing =>
            rw [hmemo] at h
            simp only at h
            obtain ⟨rfl, rfl⟩ := Prod.ext_iff.mp (Option.some.inj h)
            exact ⟨[], rfl, by simp⟩
        | none =>
            rw [hmemo] at h
            simp only at h
            by_cases hroot : isGuestRoot g = true
            · rw [if_pos hroot] at h
              obtain ⟨rfl, rfl⟩ := Prod.ext_iff.mp (Option.some.inj h)
              refine ⟨[(g.id, ⟨g, 0, [g.name], 0, true⟩)], rfl, ?_⟩
              intro kv hkv
              simp only [List.mem_singleton] at hkv
              subst hkv
              refine ⟨?_, rfl⟩
              unfold EntryOK
              exact ⟨rfl, hg, by simp [hroot]⟩
            · rw [if_neg hroot] at h
              cases hpar : resolveParent (guestById guests) g with
              | none =>
                  rw [hpar] at h
                  simp only at h
                  obtain ⟨rfl, rfl⟩ := Prod.ext_iff.mp (Option.some.inj h)
                  refine ⟨[(g.id, ⟨g, 0, [g.name], 0, true⟩)], rfl, ?_⟩
                  intro kv hkv
                  simp only [List.mem_singleton] at hkv
                  subst hkv
                  refine ⟨?_, rfl⟩
                  unfold EntryOK
                  refine ⟨rfl, hg, ?_⟩
                  simp only [Bool.not_eq_true] at hroot
                  simp [hroot, hpar]
              | some parent =>
                  rw [hpar] at h
                  simp only at h
                  cases hrec : calculateLevel (guestById guests) fuel (g.id :: visited)
                      memo parent with
                  | none => rw [hrec] at h; simp at h
                  | some pr =>
                      obtain ⟨memo₂, pn⟩ := pr
                      rw [hrec] at h
                      simp only at h
                      obtain ⟨rfl, rfl⟩ := Prod.ext_iff.mp (Option.some.inj h)
                      obtain ⟨pre, hpre, hok⟩ :=
                        ih (g.id :: visited) memo memo₂ parent pn
                          (resolveParent_mem hpar) hrec
                      refine ⟨(g.id, ⟨g, pn.level + 1, pn.chain ++ [g.name], 0, false⟩) :: pre,
                        by rw [hpre]; rfl, ?_⟩
                      intro kv hkv
                      rcases List.mem_cons.mp hkv with rfl | hkv'
                      · refine ⟨?_, rfl⟩
                        unfold EntryOK
                        refine ⟨rfl, hg, ?_⟩
                        simp only [Bool.not_eq_true] at hroot
                        simp [hroot, hpar]
                      · exact hok kv hkv'

theorem calculateLevel_covers (guests : List Guest) (fuel : Nat) (visited : List String)
    (memo memo' : TreeNodes) (g : Guest) (n : SocialTreeNode) (hnv : g.id ∉ visited)
    (h : calculateLevel (guestById guests) fuel visited memo g = some (memo', n)) :
    (mLookup memo' g.id).isSome := by
  cases fuel with
  | zero => simp [calculateLevel] at h
  | succ fuel =>
      simp only [calculateLevel] at h
      rw [if_neg hnv] at h
      cases hmemo : mLookup memo g.id with
      | some existing =>
          rw [hmemo] at h
          simp only at h
          obtain ⟨rfl, rfl⟩ := Prod.ext_iff.mp (Option.some.inj h)
          rw [hmemo]
          rfl
      | none =>
          rw [hmemo] at h
          simp only at h
          by_cases hroot : isGuestRoot g = true
          · rw [if_pos hroot] at h
            obtain ⟨rfl, rfl⟩ := Prod.ext_iff.mp (Option.some.inj h)
            rw [mLookup_cons_self]
            rfl
          · rw [if_neg hroot] at h
            cases hpar : resolveParent (guestById guests) g with
            | none =>
                rw [hpar] at h
                simp only at h
                obtain ⟨rfl, rfl⟩ := Prod.ext_iff.mp (Option.some.inj h)
                rw [mLookup_cons_self]
                rfl
            | some parent =>
                rw [hpar] at h
                simp only at h
                cases hrec : calculateLevel (guestById guests) fuel (g.id :: visited)
                    memo parent with
                | none => rw [hrec] at h; simp at h
                | some pr =>
                    obtain ⟨memo₂, pn⟩ := pr
                    rw [hrec] at h
                    simp only at h
                    obtain ⟨rfl, rfl⟩ := Prod.ext_iff.mp (Option.some.inj h)
                    rw [mLookup_cons_self]
                    rfl

theorem calculateLevel_suff (guests : List Guest) :
    ∀ (fuel : Nat) (visited : List String) (memo : TreeNodes) (g : Guest),
      g ∈ guests → unvisCount guests visited < fuel →
      (calculateLevel (guestById guests) fuel visited memo g).isSome := by
  intro fuel
  induction fuel with
  | zero => intro visited memo g _ hfuel; exact absurd hfuel (Nat.not_lt_zero _)
  | succ fuel ih =>
      intro visited memo g hg hfuel
      simp only [calculateLevel]
      by_cases hvis : g.id ∈ visited
      · rw [if_pos hvis]; rfl
      · rw [if_neg hvis]
        cases hmemo : mLookup memo g.id with
        | some existing => rfl
        | none =>
            simp only
            by_cases hroot : isGuestRoot g = true
            · rw [if_pos hroot]; rfl
            · rw [if_neg hroot]
              cases hpar : resolveParent (guestById guests) g with
              | none => rfl
              | some parent =>
                  simp only
                  have hdec : unvisCount guests (g.id :: visited) < fuel := by
                    have := unvisCount_cons_lt (List.mem_map.mpr ⟨g, hg, rfl⟩) hvis
                    omega
                  have hrec := ih (g.id :: visited) memo parent (resolveParent_mem hpar) hdec
                  cases hres : calculateLevel (guestById guests) fuel (g.id :: visited)
                      memo parent with
                  | none => rw [hres] at hrec; simp at hrec
                  | some pr => obtain ⟨memo₂, pn⟩ := pr; rfl

theorem chainList_head (gLookup : String → Option Guest) (f : Nat) (g : Guest)
    (c : List Guest) (h : chainList gLookup f g = some c) : ∃ t, c = g :: t := by
  cases f with
  | zero => simp [chainList] at h
  | succ f =>
      simp only [chainList] at h
      cases hp : resolveParent gLookup g with
      | none =>
          rw [hp] at h
          simp only [Option.some.injEq] at h
          exact ⟨[], h.symm⟩
      | some p =>
          rw [hp] at h
          simp only at h
          by_cases hr : isGuestRoot g = true
          · rw [if_pos hr] at h
            simp only [Option.some.injEq] at h
            exact ⟨[], h.symm⟩
          · rw [if_neg hr] at h
            cases hc : chainList gLookup f p with
            | none => rw [hc] at h; simp at h
            | some cp =>
                rw [hc] at h
                simp only [Option.map_some', Option.some.injEq] at h
                exact ⟨cp, h.symm⟩

theorem chainList_length_le (gLookup : String → Option Guest) :
    ∀ (f : Nat) (g : Guest) (c : List Guest),
      chainList gLookup f g = some c → c.length ≤ f := by
  intro f
  induction f with
  | zero => intro g c h; simp [chainList] at h
  | succ f ih =>
      intro g c h
      simp only [chainList] at h
      cases hp : resolveParent gLookup g with
      | none =>
          rw [hp] at h
          simp only [Option.some.injEq] at h
          simp [← h]
      | some p =>
          rw [hp] at h
          simp only at h
          by_cases hr : isGuestRoot g = true
          · rw [if_pos hr] at h
            simp only [Option.some.injEq] at h
            simp [← h]
          · rw [if_neg hr] at h
            cases hc : chainList gLookup f p with
            | none => rw [hc] at h; simp at h
            | some cp =>
                rw [hc] at h
                simp only [Option.map_some', Option.some.injEq] at h
                rw [← h]
                simpa using ih p cp hc

theorem chainList_mono (gLookup : String → Option Guest) :
    ∀ (f : Nat) (g : Guest) (c : List Guest) (f' : Nat),
      chainList gLookup f g = some c → f ≤ f' → chainList gLookup f' g = some c := by
  intro f
  induction f with
  | zero => intro g c _ h _; simp [chainList] at h
  | succ f ih =>
      intro g c f' h hle
      obtain ⟨f'', rfl⟩ : ∃ f'', f' = f'' + 1 := by
        cases f' with
        | zero => omega
        | succ k => exact ⟨k, rfl⟩
      simp only [chainList] at h ⊢
      cases hp : resolveParent gLookup g with
      | none =>
          rw [hp] at h
          simp only at h ⊢
          exact h
      | some p =>
          rw [hp] at h
          simp only at h ⊢
          by_cases hr : isGuestRoot g = true
          · rw [if_pos hr] at h ⊢
            exact h
          · rw [if_neg hr] at h ⊢
            cases hc : chainList gLookup f p with
            | none => rw [hc] at h; simp at h
            | some cp =>
                rw [hc] at h
                rw [ih p cp f'' hc (by omega)]
                exact h

theorem chainList_mem_guests (guests : List Guest) :
    ∀ (f : Nat) (g : Guest) (c : List Guest),
      chainList (guestById guests) f g = some c → ∀ x ∈ c, x = g ∨ x ∈ guests := by
  intro f
  induction f with
  | zero => intro g c h; simp [chainList] at h
  | succ f ih =>
      intro g c h x hx
      simp only [chainList] at h
      cases hp : resolveParent (guestById guests) g with
      | none =>
          rw [hp] at h
          simp only [Option.some.injEq] at h
          rw [← h] at hx
          simp only [List.mem_singleton] at hx
          exact Or.inl hx
      | some p =>
          rw [hp] at h
          simp only at h
          by_cases hr : isGuestRoot g = true
          · rw [if_pos hr] at h
            simp only [Option.some.injEq] at h
            rw [← h] at hx
            simp only [List.mem_singleton] at hx
            exact Or.inl hx
          · rw [if_neg hr] at h
            cases hc : chainList (guestById guests) f p with
            | none => rw [hc] at h; simp at h
            | some cp =>
                rw [hc] at h
                simp only [Option.map_some', Option.some.injEq] at h
                rw [← h] at hx
                rcases List.mem_cons.mp hx with rfl | hx'
                · exact Or.inl rfl
                · rcases ih p cp hc x hx' with rfl | hmem
                  · exact Or.inr (resolveParent_mem hp)
                  · exact Or.inr hmem

theorem chainList_mem_suffix (gLookup : String → Option Guest) :
    ∀ (f : Nat) (g : Guest) (c : List Guest),
      chainList gLookup f g = some c → ∀ x ∈ c,
        ∃ j t, c.drop j = x :: t ∧ chainList gLookup (f - j) x = some (x :: t) := by
  intro f
  induction f with
  | zero => intro g c h; simp [chainList] at h
  | succ f ih =>
      intro g c h x hx
      obtain ⟨t0, rfl⟩ := chainList_head gLookup _ _ _ h
      rcases List.mem_cons.mp hx with rfl | hx'
      · exact ⟨0, t0, rfl, h⟩
      · simp only [chainList] at h
        cases hp : resolveParent gLookup g with
        | none =>
            rw [hp] at h
            simp only [Option.some.injEq, List.cons.injEq] at h
            rw [← h.2] at hx'
            exact absurd hx' (List.not_mem_nil x)
        | some p =>
            rw [hp] at h
            simp only at h
            by_cases hr : isGuestRoot g = true
            · rw [if_pos hr] at h
              simp only [Option.some.injEq, List.cons.injEq] at h
              rw [← h.2] at hx'
              exact absurd hx' (List.not_mem_nil x)
            · rw [if_neg hr] at h
              cases hc : chainList gLookup f p with
              | none => rw [hc] at h; simp at h
              | some cp =>
                  rw [hc] at h
                  simp only [Option.map_some', Option.some.injEq, List.cons.injEq] at h
                  obtain ⟨-, rfl⟩ := h
                  obtain ⟨j, t, hdrop, hch⟩ := ih p cp hc x hx'
                  exact ⟨j + 1, t, by simpa using hdrop, by simpa using hch⟩

theorem chainList_nodup (guests : List Guest) (huniq : (guests.map Guest.id).Nodup) :
    ∀ (f : Nat) (g : Guest) (c : List Guest), g ∈ guests →
      chainList (guestById guests) f g = some c → (c.map Guest.id).Nodup := by
  intro f
  induction f with
  | zero => intro g c _ h; simp [chainList] at h
  | succ f ih =>
      intro g c hg h
      simp only [chainList] at h
      cases hp : resolveParent (guestById guests) g with
      | none =>
          rw [hp] at h
          simp only [Option.some.injEq] at h
          simp [← h]
      | some p =>
          rw [hp] at h
          simp only at h
          by_cases hr : isGuestRoot g = true
          · rw [if_pos hr] at h
            simp only [Option.some.injEq] at h
            simp [← h]
          · rw [if_neg hr] at h
            cases hc : chainList (guestById guests) f p with
            | none => rw [hc] at h; simp at h
            | some cp =>
                rw [hc] at h
                simp only [Option.map_some', Option.some.injEq] at h
                rw [← h]
                have hpmem : p ∈ guests := resolveParent_mem hp
                have hnd : (cp.map Guest.id).Nodup := ih p cp hpmem hc
                rw [List.map_cons, List.nodup_cons]
                refine ⟨?_, hnd⟩
                intro hgin
                obtain ⟨x, hxcp, hxid⟩ := List.mem_map.mp hgin
                have hxg : x = g := by
                  rcases chainList_mem_guests guests f p cp hc x hxcp with rfl | hxmem
                  · have hginj := (List.nodup_map_iff_inj_on
                      (List.Nodup.of_map _ huniq)).mp huniq
                    exact hginj x hpmem g hg hxid
                  · have hginj := (List.nodup_map_iff_inj_on
                      (List.Nodup.of_map _ huniq)).mp huniq
                    exact hginj x hxmem g hg hxid
                subst hxg
                obtain ⟨j, t, hdrop, hch⟩ :=
                  chainList_mem_suffix (guestById guests) f p cp hc x hxcp
                have hlen1 : (x :: t).length ≤ cp.length := by
                  have := List.length_drop j cp
                  rw [hdrop] at this
                  omega
                have hchF : chainList (guestById guests) (f + 1) x = some (x :: t) :=
                  chainList_mono (guestById guests) (f - j) x (x :: t) (f + 1) hch (by omega)
                have hcheq : chainList (guestById guests) (f + 1) x = some (x :: cp) := by
                  simp [chainList, hp, hr, hc]
                rw [hchF] at hcheq
                have := (Option.some.inj hcheq)
                have hlen2 : (x :: t).length = (x :: cp).length := by rw [this]
                simp only [List.length_cons] at hlen1 hlen2
                omega

theorem chainList_root (gLookup : String → Option Guest) (f : Nat) (g : Guest)
    (hr : isGuestRoot g = true ∨ resolveParent gLookup g = none) :
    chainList gLookup (f + 1) g = some [g] := by
  simp only [chainList]
  cases hp : resolveParent gLookup g with
  | none => simp
  | some p =>
      rcases hr with hr | hno
      · simp [hr]
      · rw [hp] at hno; cases hno

theorem calculateLevel_correct (guests : List Guest)
    (huniq : (guests.map Guest.id).Nodup) :
    ∀ (fuel : Nat) (g : Guest) (c : List Guest) (visited : List String) (memo : TreeNodes),
      g ∈ guests →
      chainList (guestById guests) (guests.length + 1) g = some c →
      c.length ≤ fuel →
      (∀ x ∈ c, x.id ∉ visited) →
      (∀ kv ∈ memo, EntryChainOK guests kv) →
      ∃ memo' n, calculateLevel (guestById guests) fuel visited memo g = some (memo', n) ∧
        (∀ kv ∈ memo', EntryChainOK guests kv) ∧
        n.guest = g ∧ n.level + 1 = c.length ∧ n.chain.length = c.length := by
  intro fuel
  induction fuel with
  | zero =>
      intro g c visited memo hg hchain hlen hvis hok
      obtain ⟨t, rfl⟩ := chainList_head _ _ _ _ hchain
      simp at hlen
  | succ fuel ih =>
      intro g c visited memo hg hchain hlen hvis hok
      have hginj := (List.nodup_map_iff_inj_on (List.Nodup.of_map _ huniq)).mp huniq
      have hgnv : g.id ∉ visited := by
        obtain ⟨t, ht⟩ := chainList_head _ _ _ _ hchain
        exact hvis g (ht ▸ List.mem_cons_self ..)
      simp only [calculateLevel]
      rw [if_neg hgnv]
      cases hmemo : mLookup memo g.id with
      | some existing =>
          obtain ⟨hk1, hk2, hk3⟩ := hok _ (mLookup_eq_some_mem hmemo)
          simp only at hk1 hk2 hk3
          have hge : existing.guest = g := hginj existing.guest hk2 g hg hk1.symm
          obtain ⟨c₂, hc₂, hl₂, hcl₂⟩ := hk3
          rw [hge, hchain] at hc₂
          have hceq : c = c₂ := Option.some.inj hc₂
          subst hceq
          exact ⟨memo, existing, rfl, hok, hge, hl₂, hcl₂⟩
      | none =>
          by_cases hroot : isGuestRoot g = true
          · have hc1 : c = [g] := by
              have := chainList_root (guestById guests) guests.length g (Or.inl hroot)
              rw [hchain] at this
              exact Option.some.inj this
            refine ⟨(g.id, ⟨g, 0, [g.name], 0, true⟩) :: memo, ⟨g, 0, [g.name], 0, true⟩,
              ?_, ?_, rfl, by simp [hc1], by simp [hc1]⟩
            · simp only
              rw [if_pos hroot]
            · intro kv hkv
              rcases List.mem_cons.mp hkv with rfl | h2
              · exact ⟨rfl, hg,
                  ⟨[g], chainList_root (guestById guests) guests.length g (Or.inl hroot),
                    by simp, by simp⟩⟩
              · exact hok kv h2
          · cases hp : resolveParent (guestById guests) g with
            | none =>
                have hc1 : c = [g] := by
                  have := chainList_root (guestById guests) guests.length g (Or.inr hp)
                  rw [hchain] at this
                  exact Option.some.inj this
                refine ⟨(g.id, ⟨g, 0, [g.name], 0, true⟩) :: memo, ⟨g, 0, [g.name], 0, true⟩,
                  ?_, ?_, rfl, by simp [hc1], by simp [hc1]⟩
                · simp only
                  rw [if_neg hroot]
                · intro kv hkv
                  rcases List.mem_cons.mp hkv with rfl | h2
                  · exact ⟨rfl, hg,
                      ⟨[g], chainList_root (guestById guests) guests.length g (Or.inr hp),
                        by simp, by simp⟩⟩
                  · exact hok kv h2
            | some p =>
                have hchain' := hchain
                simp only [chainList] at hchain'
                rw [hp] at hchain'
                simp only at hchain'
                rw [if_neg hroot] at hchain'
                cases hcp : chainList (guestById guests) guests.length p with
                | none => rw [hcp] at hchain'; simp at hchain'
                | some cp =>
                    rw [hcp] at hchain'
                    simp only [Option.map_some', Option.some.injEq] at hchain'
                    have hcpF : chainList (guestById guests) (guests.length + 1) p = some cp :=
                      chainList_mono _ _ _ _ _ hcp (Nat.le_succ _)
                    have hnd : (c.map Guest.id).Nodup :=
                      chainList_nodup guests huniq _ g c hg hchain
                    have hvis' : ∀ x ∈ cp, x.id ∉ (g.id :: visited) := by
                      intro x hx
                      rw [← hchain'] at hnd
                      simp only [List.map_cons, List.nodup_cons] at hnd
                      intro hmem
                      rcases List.mem_cons.mp hmem with heq | hmem'
                      · exact hnd.1 (heq ▸ List.mem_map.mpr ⟨x, hx, rfl⟩)
                      · exact hvis x (by rw [← hchain']; exact List.mem_cons_of_mem _ hx) hmem'
                    have hlen' : cp.length ≤ fuel := by
                      have : c.length = cp.length + 1 := by rw [← hchain']; simp
                      omega
                    obtain ⟨memo₂, pn, hrec, hok₂, hpn, hl, hcl⟩ :=
                      ih p cp (g.id :: visited) memo (resolveParent_mem hp) hcpF hlen' hvis' hok
                    refine ⟨(g.id, ⟨g, pn.level + 1, pn.chain ++ [g.name], 0, false⟩) :: memo₂,
                      ⟨g, pn.level + 1, pn.chain ++ [g.name], 0, false⟩, ?_, ?_, rfl, ?_, ?_⟩
                    · simp only
                      rw [if_neg hroot]
                      rw [hrec]
                    · intro kv hkv
                      rcases List.mem_cons.mp hkv with rfl | h2
                      · exact ⟨rfl, hg, ⟨c, hchain, by rw [← hchain']; simp; omega,
                          by rw [← hchain']; simp; omega⟩⟩
                      · exact hok₂ kv h2
                    · rw [← hchain']
                      simp
                      omega
                    · rw [← hchain']
                      simp
                      omega

theorem buildLevels_correct (guests : List Guest)
    (huniq : (guests.map Guest.id).Nodup) (hacyc : AcyclicGuests guests) :
    ∀ (gs : List Guest) (memo : TreeNodes), (∀ g ∈ gs, g ∈ guests) →
      (∀ kv ∈ memo, EntryChainOK guests kv) →
      ∃ m', gs.foldlM (fun memo g =>
          (calculateLevel (guestById guests) (guests.length + 1) [] memo g).map Prod.fst)
          memo = some m' ∧ (∀ kv ∈ m', EntryChainOK guests kv) := by
  intro gs
  induction gs with
  | nil => intro memo _ hok; exact ⟨memo, rfl, hok⟩
  | cons g gs ihgs =>
      intro memo hmem hok
      have hg : g ∈ guests := hmem g (List.mem_cons_self ..)
      have hsome := hacyc g hg
      cases hc : chainList (guestById guests) (guests.length + 1) g with
      | none => rw [hc] at hsome; simp at hsome
      | some c =>
          obtain ⟨memo₁, n, hres, hok₁, -, -, -⟩ :=
            calculateLevel_correct guests huniq (guests.length + 1) g c [] memo hg hc
              (chainList_length_le _ _ _ _ hc) (by simp) hok
          obtain ⟨m', hm', hok'⟩ :=
            ihgs memo₁ (fun g' h' => hmem g' (List.mem_cons_of_mem _ h')) hok₁
          refine ⟨m', ?_, hok'⟩
          rw [List.foldlM_cons, hres]
          simpa using hm'

theorem chainList_parent_not_mem (gLookup : String → Option Guest) {p q : Guest}
    {f : Nat} {c : List Guest} (hpq : resolveParent gLookup p = some q)
    (hnr : isGuestRoot p = false) (hc : chainList gLookup f q = some c) : p ∉ c := by
  intro hmem
  obtain ⟨j, t, hdrop, hch⟩ := chainList_mem_suffix gLookup f q c hc p hmem
  have hstep : chainList gLookup (f - j) p = some (p :: t) := hch
  have ht : ∃ fj, f - j = fj + 1 := by
    cases hfj : f - j with
    | zero => rw [hfj] at hstep; simp [chainList] at hstep
    | succ k => exact ⟨k, rfl⟩
  obtain ⟨fj, hfj⟩ := ht
  rw [hfj] at hstep
  simp only [chainList] at hstep
  rw [hpq] at hstep
  simp only at hstep
  rw [if_neg (by simp [hnr])] at hstep
  cases hq : chainList gLookup fj q with
  | none => rw [hq] at hstep; simp at hstep
  | some t' =>
      rw [hq] at hstep
      simp only [Option.map_some', Option.some.injEq, List.cons.injEq] at hstep
      obtain ⟨-, rfl⟩ := hstep
      have hmono : chainList gLookup f q = some t' :=
        chainList_mono gLookup fj q t' f hq (by omega)
      rw [hc] at hmono
      have hceq : c = t' := Option.some.inj hmono
      have hlen : (p :: t').length ≤ c.length - j := by
        have hld := List.length_drop j c
        rw [hdrop] at hld
        simp only [hld]
        omega
      rw [hceq] at hlen
      simp only [List.length_cons] at hlen
      omega

theorem buildLevels_sound (guests : List Guest) :
    ∀ (gs : List Guest) (memo : TreeNodes),
      (∀ g ∈ gs, g ∈ guests) → (∀ kv ∈ memo, EntryOK guests kv) →
      (∀ kv ∈ memo, kv.2.childCount = 0) →
      ∃ m', gs.foldlM (fun memo g =>
          (calculateLevel (guestById guests) (guests.length + 1) [] memo g).map Prod.fst)
          memo = some m' ∧
        (∀ kv ∈ m', EntryOK guests kv) ∧
        (∀ kv ∈ m', kv.2.childCount = 0) ∧
        (∀ k, (mLookup memo k).isSome → (mLookup m' k).isSome) ∧
        (∀ g ∈ gs, (mLookup m' g.id).isSome) := by
  intro gs
  induction gs with
  | nil => intro memo _ hok hzero; exact ⟨memo, rfl, hok, hzero, fun _ h => h, by simp⟩
  | cons g gs ihgs =>
      intro memo hmem hok hzero
      have hg : g ∈ guests := hmem g (List.mem_cons_self ..)
      have hfuel : unvisCount guests [] < guests.length + 1 :=
        Nat.lt_succ_of_le (unvisCount_le guests [])
      have hsome := calculateLevel_suff guests (guests.length + 1) [] memo g hg hfuel
      cases hres : calculateLevel (guestById guests) (guests.length + 1) [] memo g with
      | none => rw [hres] at hsome; simp at hsome
      | some pr =>
          obtain ⟨memo₁, n⟩ := pr
          obtain ⟨pre, hpre, hpreok⟩ := calculateLevel_entries guests _ _ _ _ _ _ hg hres
          have hok₁ : ∀ kv ∈ memo₁, EntryOK guests kv := by
            intro kv hkv
            rw [hpre] at hkv
            rcases List.mem_append.mp hkv with h1 | h2
            · exact (hpreok kv h1).1
            · exact hok kv h2
          have hzero₁ : ∀ kv ∈ memo₁, kv.2.childCount = 0 := by
            intro kv hkv
            rw [hpre] at hkv
            rcases List.mem_append.mp hkv with h1 | h2
            · exact (hpreok kv h1).2
            · exact hzero kv h2
          have hcover : (mLookup memo₁ g.id).isSome :=
            calculateLevel_covers guests _ [] memo memo₁ g n (by simp) hres
          obtain ⟨m', hm', hmok, hmzero, hmono, hcov⟩ :=
            ihgs memo₁ (fun g' h' => hmem g' (List.mem_cons_of_mem _ h')) hok₁ hzero₁
          refine ⟨m', ?_, hmok, hmzero, ?_, ?_⟩
          · rw [List.foldlM_cons, hres]
            simpa using hm'
          · intro k hk
            refine hmono k ?_
            rw [hpre]
            exact mLookup_append_isSome hk
          · intro g' hg'
            rcases List.mem_cons.mp hg' with rfl | h'
            · exact hmono _ hcover
            · exact hcov g' h'

theorem influenceWalk_pres (guests : List Guest) (P : String × SocialTreeNode → Prop)
    (hbump : ∀ cid n, P (cid, n) → P (cid, { n with childCount := n.childCount + 1 }))
    (hids : ∀ cid n, P (cid, n) → cid = n.guest.id ∧ n.guest ∈ guests) :
    ∀ (fuel : Nat) (memo : TreeNodes) (cur : Option String) (visited : List String),
      (∀ kv ∈ memo, P kv) → unvisCount guests visited < fuel →
      ∃ m', influenceWalk (guestById guests) fuel memo cur visited = some m' ∧
        (∀ kv ∈ m', P kv) ∧
        (∀ k, (mLookup memo k).isSome → (mLookup m' k).isSome) := by
  intro fuel
  induction fuel with
  | zero => intro _ _ _ hfuel h; exact absurd h (Nat.not_lt_zero _)
  | succ fuel ih =>
      intro memo cur visited hok hfuel
      cases cur with
      | none => exact ⟨memo, rfl, hok, fun _ h => h⟩
      | some cid =>
          by_cases hemp : cid = ""
          · refine ⟨memo, ?_, hok, fun _ h => h⟩
            simp only [influenceWalk]
            rw [if_pos hemp]
          · by_cases hvis : cid ∈ visited
            · refine ⟨memo, ?_, hok, fun _ h => h⟩
              simp only [influenceWalk]
              rw [if_neg hemp, if_pos hvis]
            · cases hml : mLookup memo cid with
              | none =>
                  refine ⟨memo, ?_, hok, fun _ h => h⟩
                  simp only [influenceWalk]
                  rw [if_neg hemp, if_neg hvis, hml]
              | some node =>
                  have hentry := hok _ (mLookup_eq_some_mem hml)
                  obtain ⟨hk1, hk2⟩ := hids _ _ hentry
                  have hok' : ∀ kv ∈
                      ((cid, { node with childCount := node.childCount + 1 }) :: memo),
                      P kv := by
                    intro kv hkv
                    rcases List.mem_cons.mp hkv with rfl | h2
                    · exact hbump _ _ hentry
                    · exact hok kv h2
                  have hmono' : ∀ k, (mLookup memo k).isSome →
                      (mLookup ((cid, { node with childCount := node.childCount + 1 })
                        :: memo) k).isSome := by
                    intro k h
                    exact @mLookup_append_isSome
                      [(cid, { node with childCount := node.childCount + 1 })] memo k h
                  have hcid_mem : cid ∈ guests.map Guest.id :=
                    hk1 ▸ List.mem_map.mpr ⟨node.guest, hk2, rfl⟩
                  have hdec : unvisCount guests (cid :: visited) < fuel := by
                    have := unvisCount_cons_lt hcid_mem hvis
                    omega
                  cases hgl : guestById guests cid with
                  | none =>
                      obtain ⟨m', hm', hmok, hmono⟩ :=
                        ih ((cid, { node with childCount := node.childCount + 1 }) :: memo)
                          none (cid :: visited) hok' hdec
                      refine ⟨m', ?_, hmok, fun k h => hmono k (hmono' k h)⟩
                      simp only [influenceWalk, hml, hgl, if_neg hemp, if_neg hvis]
                      exact hm'
                  | some pg =>
                      by_cases hr : isGuestRoot pg = true
                      · refine ⟨(cid, { node with childCount := node.childCount + 1 })
                          :: memo, ?_, hok', hmono'⟩
                        simp only [influenceWalk, hml, hgl, hr, if_neg hemp, if_neg hvis,
                          if_pos]
                      · obtain ⟨m', hm', hmok, hmono⟩ :=
                          ih ((cid, { node with childCount := node.childCount + 1 }) :: memo)
                            pg.parentId (cid :: visited) hok' hdec
                        refine ⟨m', ?_, hmok, fun k h => hmono k (hmono' k h)⟩
                        simp only [influenceWalk, hml, hgl, hr, if_neg hemp, if_neg hvis,
                          if_pos]
                        exact hm'

theorem influencePass_pres (guests : List Guest) (P : String × SocialTreeNode → Prop)
    (hbump : ∀ cid n, P (cid, n) → P (cid, { n with childCount := n.childCount + 1 }))
    (hids : ∀ cid n, P (cid, n) → cid = n.guest.id ∧ n.guest ∈ guests) :
    ∀ (gs : List Guest) (memo : TreeNodes), (∀ kv ∈ memo, P kv) →
      ∃ m', influencePass (guestById guests) (guests.length + 1) gs memo = some m' ∧
        (∀ kv ∈ m', P kv) ∧
        (∀ k, (mLookup memo k).isSome → (mLookup m' k).isSome) := by
  intro gs
  induction gs with
  | nil => intro memo hok; exact ⟨memo, rfl, hok, fun _ h => h⟩
  | cons g gs ihgs =>
      intro memo hok
      by_cases hcond : (strOptTruthy g.parentId && !(isGuestRoot g)) = true
      · have hfuel : unvisCount guests [] < guests.length + 1 :=
          Nat.lt_succ_of_le (unvisCount_le guests [])
        obtain ⟨m₁, hm₁, hok₁, hmono₁⟩ :=
          influenceWalk_pres guests P hbump hids (guests.length + 1) memo g.parentId [] hok hfuel
        obtain ⟨m', hm', hok', hmono'⟩ := ihgs m₁ hok₁
        refine ⟨m', ?_, hok', fun k h => hmono' k (hmono₁ k h)⟩
        unfold influencePass at hm' ⊢
        rw [List.foldlM_cons]
        simp only [hcond, if_true]
        rw [hm₁]
        simpa using hm'
      · obtain ⟨m', hm', hok', hmono'⟩ := ihgs memo hok
        refine ⟨m', ?_, hok', hmono'⟩
        unfold influencePass at hm' ⊢
        rw [List.foldlM_cons]
        simp only [hcond, if_false]
        simpa using hm'

theorem influenceWalk_spec (guests : List Guest) :
    ∀ (fuel : Nat) (memo : TreeNodes) (cur : Option String) (visited : List String),
      (∀ k, (mLookup memo k).isSome = (guestById guests k).isSome) →
      unvisCount guests visited < fuel →
      ∃ m', influenceWalk (guestById guests) fuel memo cur visited = some m' ∧
        ∀ k, mLookup m' k =
          if k ∈ walkIds (guestById guests) fuel cur visited
          then (mLookup memo k).map bump1 else mLookup memo k := by
  intro fuel
  induction fuel with
  | zero => intro _ _ _ hkeys hfuel; exact absurd hfuel (Nat.not_lt_zero _)
  | succ fuel ih =>
      intro memo cur visited hkeys hfuel
      cases cur with
      | none => exact ⟨memo, rfl, by intro k; simp [walkIds]⟩
      | some cid =>
          by_cases hemp : cid = ""
          · refine ⟨memo, ?_, ?_⟩
            · simp only [influenceWalk]
              rw [if_pos hemp]
            · intro k
              simp [walkIds, hemp]
          · by_cases hvis : cid ∈ visited
            · refine ⟨memo, ?_, ?_⟩
              · simp only [influenceWalk]
                rw [if_neg hemp, if_pos hvis]
              · intro k
                simp [walkIds, hemp, hvis]
            · cases hml : mLookup memo cid with
              | none =>
                  have hgl : guestById guests cid = none := by
                    have := hkeys cid
                    rw [hml] at this
                    cases hx : guestById guests cid with
                    | none => rfl
                    | some q => rw [hx] at this; simp at this
                  refine ⟨memo, ?_, ?_⟩
                  · simp only [influenceWalk]
                    rw [if_neg hemp, if_neg hvis, hml]
                  · intro k
                    simp [walkIds, hemp, hvis, hgl]
              | some node =>
                  have hgl : ∃ pg, guestById guests cid = some pg := by
                    have := hkeys cid
                    rw [hml] at this
                    cases hx : guestById guests cid with
                    | none => rw [hx] at this; simp at this
                    | some q => exact ⟨q, rfl⟩
                  obtain ⟨pg, hgl⟩ := hgl
                  have hcid_mem : cid ∈ guests.map Guest.id := by
                    obtain ⟨hmem, hid⟩ := guestById_eq_some hgl
                    exact hid ▸ List.mem_map.mpr ⟨pg, hmem, rfl⟩
                  have hchar₁ : ∀ k, mLookup ((cid, bump1 node) :: memo) k =
                      if k = cid then (mLookup memo k).map bump1 else mLookup memo k := by
                    intro k
                    by_cases hk : k = cid
                    · subst hk
                      rw [mLookup_cons_self, hml]
                      simp [if_pos rfl]
                    · rw [mLookup_cons_ne hk, if_neg hk]
                  have hkeys₁ : ∀ k, (mLookup ((cid, bump1 node) :: memo) k).isSome
                      = (guestById guests k).isSome := by
                    intro k
                    rw [hchar₁ k]
                    by_cases hk : k = cid
                    · rw [if_pos hk, Option.isSome_map']
                      exact hkeys k
                    · rw [if_neg hk]
                      exact hkeys k
                  by_cases hr : isGuestRoot pg = true
                  · refine ⟨(cid, bump1 node) :: memo, ?_, ?_⟩
                    · simp only [influenceWalk, hml, hgl, hr, if_neg hemp, if_neg hvis,
                        if_pos, bump1]
                    · intro k
                      have hw : walkIds (guestById guests) (fuel + 1) (some cid) visited
                          = [cid] := by
                        simp [walkIds, hemp, hvis, hgl, hr]
                      rw [hw, hchar₁ k]
                      by_cases hk : k = cid
                      · rw [if_pos hk, if_pos (by simp [hk])]
                      · rw [if_neg hk, if_neg (by simp [hk])]
                  · have hdec : unvisCount guests (cid :: visited) < fuel := by
                      have := unvisCount_cons_lt hcid_mem hvis
                      omega
                    obtain ⟨m', hm', hchar⟩ :=
                      ih ((cid, bump1 node) :: memo) pg.parentId (cid :: visited) hkeys₁ hdec
                    refine ⟨m', ?_, ?_⟩
                    · simp only [influenceWalk, hml, hgl, hr, if_neg hemp, if_neg hvis,
                        Bool.false_eq_true, if_false]
                      rw [← hm']
                      rfl
                    · intro k
                      have hw : walkIds (guestById guests) (fuel + 1) (some cid) visited
                          = cid :: walkIds (guestById guests) fuel pg.parentId
                              (cid :: visited) := by
                        simp [walkIds, hemp, hvis, hgl, hr]
                      rw [hw, hchar k, hchar₁ k]
                      by_cases hk : k = cid
                      · have hnw : k ∉ walkIds (guestById guests) fuel pg.parentId
                            (cid :: visited) := by
                          intro hmem
                          exact walkIds_not_mem_visited _ _ _ _ _ hmem
                            (by rw [hk]; exact List.mem_cons_self ..)
                        rw [if_neg hnw, if_pos hk,
                          if_pos (by rw [hk]; exact List.mem_cons_self ..)]
                      · rw [if_neg hk]
                        by_cases hw' : k ∈ walkIds (guestById guests) fuel pg.parentId
                            (cid :: visited)
                        · rw [if_pos hw', if_pos (List.mem_cons_of_mem _ hw')]
                        · rw [if_neg hw', if_neg (by
                            intro hmem
                            rcases List.mem_cons.mp hmem with h1 | h2
                            · exact hk h1
                            · exact hw' h2)]

theorem bumpBy_bump1 (j : Nat) (n : SocialTreeNode) :
    bumpBy j (bump1 n) = bumpBy (j + 1) n := by
  cases n
  simp only [bumpBy, bump1]
  congr 1
  omega

theorem bumpBy_zero (n : SocialTreeNode) : bumpBy 0 n = n := rfl

theorem influencePass_spec (guests : List Guest) :
    ∀ (gs : List Guest) (memo : TreeNodes),
      (∀ k, (mLookup memo k).isSome = (guestById guests k).isSome) →
      ∃ m', influencePass (guestById guests) (guests.length + 1) gs memo = some m' ∧
        ∀ k, mLookup m' k = (mLookup memo k).map
          (bumpBy (gs.countP (fun g => walkCond g &&
            (walkIds (guestById guests) (guests.length + 1) g.parentId []).contains k))) := by
  intro gs
  induction gs with
  | nil =>
      intro memo hkeys
      refine ⟨memo, rfl, ?_⟩
      intro k
      simp only [List.countP_nil]
      cases mLookup memo k <;> simp [bumpBy_zero]
  | cons g gs ihgs =>
      intro memo hkeys
      by_cases hcond : (strOptTruthy g.parentId && !(isGuestRoot g)) = true
      · have hfuel : unvisCount guests [] < guests.length + 1 :=
          Nat.lt_succ_of_le (unvisCount_le guests [])
        obtain ⟨m₁, hm₁, hchar₁⟩ :=
          influenceWalk_spec guests (guests.length + 1) memo g.parentId [] hkeys hfuel
        have hkeys₁ : ∀ k, (mLookup m₁ k).isSome = (guestById guests k).isSome := by
          intro k
          rw [hchar₁ k]
          by_cases hk : k ∈ walkIds (guestById guests) (guests.length + 1) g.parentId []
          · rw [if_pos hk, Option.isSome_map']
            exact hkeys k
          · rw [if_neg hk]
            exact hkeys k
        obtain ⟨m', hm', hchar⟩ := ihgs m₁ hkeys₁
        refine ⟨m', ?_, ?_⟩
        · unfold influencePass at hm' ⊢
          rw [List.foldlM_cons]
          simp only [hcond, if_true]
          rw [hm₁]
          simpa using hm'
        · intro k
          rw [hchar k, hchar₁ k]
          by_cases hk : k ∈ walkIds (guestById guests) (guests.length + 1) g.parentId []
          · rw [if_pos hk]
            rw [List.countP_cons_of_pos _ _ (by
              simp only [walkCond]
              rw [hcond]
              simpa using hk)]
            cases hmk : mLookup memo k with
            | none => simp
            | some n => simp [bumpBy_bump1]
          · rw [if_neg hk]
            rw [List.countP_cons_of_neg _ _ (by
              simp only [walkCond]
              intro hcontra
              rw [Bool.and_eq_true] at hcontra
              exact hk (by simpa using hcontra.2))]
      · obtain ⟨m', hm', hchar⟩ := ihgs memo hkeys
        refine ⟨m', ?_, ?_⟩
        · unfold influencePass at hm' ⊢
          rw [List.foldlM_cons]
          simp only [hcond, if_false]
          simpa using hm'
        · intro k
          rw [hchar k]
          rw [List.countP_cons_of_neg _ _ (by
            intro hcontra
            rw [Bool.and_eq_true] at hcontra
            exact hcond (by simpa [walkCond] using hcontra.1))]

theorem walkIds_dead (gLookup : String → Option Guest) (p : Guest)
    (hpp : resolveParent gLookup p = none) :
    ∀ (f : Nat) (vis : List String), walkIds gLookup f p.parentId vis = [] := by
  intro f vis
  unfold resolveParent at hpp
  by_cases ht : strOptTruthy p.parentId = true
  · rw [if_pos ht] at hpp
    cases hpid : p.parentId with
    | none => cases f <;> simp [walkIds]
    | some pid =>
        have hpp' : gLookup pid = none := by rw [hpid] at hpp; exact hpp
        cases f with
        | zero => simp [walkIds]
        | succ f =>
            simp only [walkIds]
            by_cases hemp : pid = ""
            · rw [if_pos hemp]
            · rw [if_neg hemp]
              by_cases hv : pid ∈ vis
              · rw [if_pos hv]
              · rw [if_neg hv, hpp']
  · cases hpid : p.parentId with
    | none => cases f <;> simp [walkIds]
    | some pid =>
        have hemp : pid = "" := by
          unfold strOptTruthy at ht
          rw [hpid] at ht
          simpa using ht
        cases f with
        | zero => simp [walkIds]
        | succ f =>
            simp only [walkIds]
            rw [if_pos hemp]

theorem resolveParent_some_facts {guests : List Guest} {p q : Guest}
    (h : resolveParent (guestById guests) p = some q) :
    q ∈ guests ∧ q.id ≠ "" ∧ p.parentId = some q.id := by
  unfold resolveParent at h
  by_cases ht : strOptTruthy p.parentId = true
  · rw [if_pos ht] at h
    cases hpid : p.parentId with
    | none => rw [hpid] at h; simp at h
    | some pid =>
        rw [hpid] at h
        obtain ⟨hmem, hid⟩ := guestById_eq_some h
        refine ⟨hmem, ?_, ?_⟩
        · rw [hid]
          unfold strOptTruthy at ht
          rw [hpid] at ht
          simpa using ht
        · rw [hid]
  · rw [if_neg ht] at h
    simp at h

theorem walkIds_mem_iff_chain (guests : List Guest)
    (huniq : (guests.map Guest.id).Nodup) (r : Guest) (hr : r ∈ guests)
    (hrootr : outputRootB (guestById guests) r = true) :
    ∀ (fuel : Nat) (p : Guest) (visited : List String), p ∈ guests → p.id ≠ "" →
      (r.id ∈ walkIds (guestById guests) fuel (some p.id) visited ↔
        ∃ c, chainList (guestById guests) fuel p = some c ∧
          (∀ x ∈ c, x.id ∉ visited) ∧ c.getLast? = some r) := by
  have hginj := (List.nodup_map_iff_inj_on (List.Nodup.of_map _ huniq)).mp huniq
  intro fuel
  induction fuel with
  | zero =>
      intro p visited _ _
      simp [walkIds, chainList]
  | succ fuel ih =>
      intro p visited hpmem hpne
      have hglp : guestById guests p.id = some p := guestById_self huniq hpmem
      by_cases hvis : p.id ∈ visited
      · constructor
        · intro hmem
          simp [walkIds, hpne, hvis] at hmem
        · rintro ⟨c, hc, hnv, -⟩
          obtain ⟨t, rfl⟩ := chainList_head _ _ _ _ hc
          exact absurd hvis (hnv p (List.mem_cons_self ..))
      · by_cases hrp : isGuestRoot p = true
        · have hlhs : walkIds (guestById guests) (fuel + 1) (some p.id) visited
              = [p.id] := by
            simp [walkIds, hpne, hvis, hglp, hrp]
          have hrhs : chainList (guestById guests) (fuel + 1) p = some [p] := by
            simp only [chainList]
            cases hpp : resolveParent (guestById guests) p with
            | none => simp
            | some q => simp [hrp]
          rw [hlhs, hrhs]
          constructor
          · intro hmem
            simp only [List.mem_singleton] at hmem
            have : r = p := hginj r hr p hpmem hmem
            subst this
            exact ⟨[r], rfl, by simpa using hvis, rfl⟩
          · rintro ⟨c, hc, -, hlast⟩
            have hcp : c = [p] := Option.some.inj hc.symm
            rw [hcp] at hlast
            simp only [List.getLast?_singleton, Option.some.injEq] at hlast
            simp [hlast]
        · cases hpp : resolveParent (guestById guests) p with
          | none =>
              have hlhs : walkIds (guestById guests) (fuel + 1) (some p.id) visited
                  = [p.id] := by
                simp only [walkIds]
                rw [if_neg hpne, if_neg hvis, hglp]
                simp only [hrp, Bool.false_eq_true, if_false]
                rw [walkIds_dead (guestById guests) p hpp]
              have hrhs : chainList (guestById guests) (fuel + 1) p = some [p] := by
                simp only [chainList]
                rw [hpp]
              rw [hlhs, hrhs]
              constructor
              · intro hmem
                simp only [List.mem_singleton] at hmem
                have : r = p := hginj r hr p hpmem hmem
                subst this
                exact ⟨[r], rfl, by simpa using hvis, rfl⟩
              · rintro ⟨c, hc, -, hlast⟩
                have hcp : c = [p] := Option.some.inj hc.symm
                rw [hcp] at hlast
                simp only [List.getLast?_singleton, Option.some.injEq] at hlast
                simp [hlast]
          | some q =>
              obtain ⟨hqmem, hqne, hppid⟩ := resolveParent_some_facts hpp
              have hrnep : r.id ≠ p.id := by
                intro heq
                have : r = p := hginj r hr p hpmem heq
                subst this
                unfold outputRootB at hrootr
                rw [hpp] at hrootr
                simp at hrootr
                exact hrp hrootr
              have hlhs : walkIds (guestById guests) (fuel + 1) (some p.id) visited
                  = p.id :: walkIds (guestById guests) fuel (some q.id) (p.id :: visited) := by
                simp only [walkIds]
                rw [if_neg hpne, if_neg hvis, hglp]
                simp only [hrp, Bool.false_eq_true, if_false]
                rw [hppid]
              have hrhs : chainList (guestById guests) (fuel + 1) p
                  = (chainList (guestById guests) fuel q).map (fun c => p :: c) := by
                simp only [chainList]
                rw [hpp]
                simp only [hrp, Bool.false_eq_true, if_false]
              rw [hlhs, hrhs]
              have hnotp : ∀ c', chainList (guestById guests) fuel q = some c' →
                  ∀ x ∈ c', x.id ≠ p.id := by
                intro c' hc' x hx heq
                have hxg : x = p := by
                  rcases chainList_mem_guests guests fuel q c' hc' x hx with rfl | hxmem
                  · exact hginj x hqmem p hpmem heq
                  · exact hginj x hxmem p hpmem heq
                exact chainList_parent_not_mem (guestById guests) hpp
                  (by simpa using hrp) hc' (hxg ▸ hx)
              constructor
              · intro hmem
                rcases List.mem_cons.mp hmem with heq | hmem'
                · exact absurd heq hrnep
                · obtain ⟨c', hc', hnv', hlast'⟩ :=
                    (ih q (p.id :: visited) hqmem hqne).mp hmem'
                  obtain ⟨t, rfl⟩ := chainList_head _ _ _ _ hc'
                  refine ⟨p :: q :: t, by rw [hc']; rfl, ?_, by
                    rw [List.getLast?_cons_cons]
                    exact hlast'⟩
                  intro x hx
                  rcases List.mem_cons.mp hx with rfl | hx'
                  · exact hvis
                  · intro hinv
                    exact hnv' x hx' (List.mem_cons_of_mem _ hinv)
              · rintro ⟨c, hc, hnv, hlast⟩
                cases hc' : chainList (guestById guests) fuel q with
                | none => rw [hc'] at hc; simp at hc
                | some c' =>
                    rw [hc'] at hc
                    simp only [Option.map_some', Option.some.injEq] at hc
                    obtain ⟨t, ht⟩ := chainList_head _ _ _ _ hc'
                    refine List.mem_cons_of_mem _ ((ih q (p.id :: visited) hqmem hqne).mpr
                      ⟨c', hc', ?_, ?_⟩)
                    · intro x hx
                      intro hmem
                      rcases List.mem_cons.mp hmem with heq | hmem'
                      · exact hnotp c' hc' x hx heq
                      · exact hnv x (by rw [← hc]; exact List.mem_cons_of_mem _ hx) hmem'
                    · rw [← hc] at hlast
                      rw [ht] at hlast ⊢
                      rw [List.getLast?_cons_cons] at hlast
                      exact hlast

theorem buildSocialTree_sound (guests : List Guest) :
    ∃ m, buildSocialTree guests = some m ∧ (∀ kv ∈ m, EntryOK guests kv) ∧
      ∀ g ∈ guests, (mLookup m g.id).isSome := by
  obtain ⟨m₁, hm₁, hok₁, -, -, hcov₁⟩ :=
    buildLevels_sound guests guests [] (fun _ h => h) (by simp) (by simp)
  obtain ⟨m, hm, hok, hmono⟩ := influencePass_pres guests (EntryOK guests)
    (fun cid n hP => ⟨hP.1, hP.2.1, hP.2.2⟩) (fun cid n hP => ⟨hP.1, hP.2.1⟩)
    guests m₁ hok₁
  refine ⟨m, ?_, hok, fun g hg => hmono _ (hcov₁ g hg)⟩
  unfold buildSocialTree
  have hb : buildLevels (guestById guests) (guests.length + 1) guests = some m₁ := hm₁
  rw [hb]
  exact hm

theorem walker_pred_iff (guests : List Guest) (huniq : (guests.map Guest.id).Nodup)
    (r : Guest) (hr : r ∈ guests)
    (hrootB : outputRootB (guestById guests) r = true) (g : Guest) :
    ((walkCond g &&
        (walkIds (guestById guests) (guests.length + 1) g.parentId []).contains r.id) = true
      ↔ attributedTo guests r.id g = true) := by
  unfold attributedTo
  by_cases hw : walkCond g = true
  · rw [hw]
    simp only [Bool.true_and]
    cases hpp : resolveParent (guestById guests) g with
    | none =>
        rw [walkIds_dead (guestById guests) g hpp]
        simp
    | some p =>
        obtain ⟨hpmem, hpne, hppid⟩ := resolveParent_some_facts hpp
        rw [hppid]
        have hiff := walkIds_mem_iff_chain guests huniq r hr hrootB
          (guests.length + 1) p [] hpmem hpne
        have hginj := (List.nodup_map_iff_inj_on (List.Nodup.of_map _ huniq)).mp huniq
        cases hc : chainList (guestById guests) (guests.length + 1) p with
        | none =>
            simp only [hc]
            constructor
            · intro hcont
              obtain ⟨c, hcc, -, -⟩ := hiff.mp (by simpa using hcont)
              rw [hc] at hcc
              simp at hcc
            · intro hfalse
              simp at hfalse
        | some c =>
            simp only [hc]
            cases hlast : c.getLast? with
            | none =>
                obtain ⟨t, rfl⟩ := chainList_head _ _ _ _ hc
                simp at hlast
            | some x =>
                simp only [hlast]
                have hxmem : x ∈ guests := by
                  rcases chainList_mem_guests guests _ p c hc x
                      (List.mem_of_getLast?_eq_some hlast) with rfl | hx
                  · exact hpmem
                  · exact hx
                constructor
                · intro hcont
                  obtain ⟨c', hcc, -, hlast'⟩ := hiff.mp (by simpa using hcont)
                  rw [hc] at hcc
                  have hceq : c = c' := Option.some.inj hcc
                  rw [← hceq, hlast] at hlast'
                  have hxr : x = r := Option.some.inj hlast'
                  simp [hxr]
                · intro hx
                  have hxr : x.id = r.id := by simpa using hx
                  have : x = r := hginj x hxmem r hr hxr
                  subst this
                  have hm := hiff.mpr ⟨c, hc, by simp, hlast⟩
                  simpa using hm
  · constructor
    · intro hcont
      rw [Bool.and_eq_true] at hcont
      exact absurd hcont.1 hw
    · intro hattr
      rw [Bool.and_eq_true] at hattr
      exact absurd hattr.1 hw

/-- CLAIM C6: for every guest list with unique ids (the data-model invariant
of spec §3), each guest whose output node is a root has `childCount` equal
to the number of guests in its reachable subtree: the guests whose ancestor
path (following `parentId` links from their parent) reaches that root before
reaching any other root (`attributedTo`). -/
theorem root_childCount_counts_subtree (guests : List Guest)
    (huniq : (guests.map Guest.id).Nodup) (r : Guest) (hr : r ∈ guests) :
    ∃ m n, buildSocialTree guests = some m ∧ mLookup m r.id = some n ∧ n.guest = r ∧
      (n.isRoot = true →
        n.childCount = (guests.filter (attributedTo guests r.id)).length) := by
  have hginj := (List.nodup_map_iff_inj_on (List.Nodup.of_map _ huniq)).mp huniq
  obtain ⟨m₁, hm₁, hok₁, hzero₁, -, hcov₁⟩ :=
    buildLevels_sound guests guests [] (fun _ h => h) (by simp) (by simp)
  have hkeys₁ : ∀ k, (mLookup m₁ k).isSome = (guestById guests k).isSome := by
    intro k
    cases hml : mLookup m₁ k with
    | some n0 =>
        obtain ⟨hk1, hk2, -⟩ := hok₁ _ (mLookup_eq_some_mem hml)
        simp only at hk1 hk2
        have hs := guestById_isSome_of_mem hk2
        rw [← hk1] at hs
        simp [hs]
    | none =>
        cases hgl : guestById guests k with
        | none => rfl
        | some g' =>
            obtain ⟨hmem, hid⟩ := guestById_eq_some hgl
            have hcc := hcov₁ g' hmem
            rw [hid, hml] at hcc
            simp at hcc
  obtain ⟨m₂, hm₂, hchar⟩ := influencePass_spec guests guests m₁ hkeys₁
  have hbst : buildSocialTree guests = some m₂ := by
    unfold buildSocialTree
    have hb : buildLevels (guestById guests) (guests.length + 1) guests = some m₁ := hm₁
    rw [hb]
    exact hm₂
  have hks := hcov₁ r hr
  cases hml₁ : mLookup m₁ r.id with
  | none => rw [hml₁] at hks; simp at hks
  | some n₀ =>
      obtain ⟨hk1, hk2, hk3⟩ := hok₁ _ (mLookup_eq_some_mem hml₁)
      simp only at hk1 hk2 hk3
      have hn₀g : n₀.guest = r := hginj n₀.guest hk2 r hr hk1.symm
      have hn₀z : n₀.childCount = 0 := hzero₁ _ (mLookup_eq_some_mem hml₁)
      have hchr := hchar r.id
      rw [hml₁] at hchr
      simp only [Option.map_some'] at hchr
      refine ⟨m₂, _, hbst, hchr, hn₀g, ?_⟩
      intro hroot
      have hrootB : outputRootB (guestById guests) r = true := by
        unfold outputRootB
        rw [← hn₀g]
        rw [← hk3]
        exact hroot
      have hcnt : guests.countP (fun g => walkCond g &&
          (walkIds (guestById guests) (guests.length + 1) g.parentId []).contains r.id)
          = guests.countP (attributedTo guests r.id) :=
        List.countP_congr (fun g _ => walker_pred_iff guests huniq r hr hrootB g)
      show n₀.childCount + _ = _
      rw [hn₀z, hcnt, List.countP_eq_length_filter]
      simp

/-- Witness for `root_childCount_counts_subtree`: the two-guest list with
one root and its invitee. -/
theorem root_childCount_counts_subtree_witness :
    ∃ m n, buildSocialTree [exRootGuest, exChildGuest] = some m ∧
      mLookup m exRootGuest.id = some n ∧ n.guest = exRootGuest ∧
      (n.isRoot = true →
        n.childCount = ([exRootGuest, exChildGuest].filter
          (attributedTo [exRootGuest, exChildGuest] exRootGuest.id)).length) :=
  root_childCount_counts_subtree [exRootGuest, exChildGuest] (by decide) exRootGuest
    (by decide)

/-- CLAIM C8: for every guest list — dangling, self-referential or cyclic
`parentId` references included — `buildSocialTree` terminates (the fuelled
recursion never exhausts its fuel, i.e. the result is `some`) and the output
map contains an entry for every guest of the input list. -/
theorem tree_builder_terminates (guests : List Guest) :
    ∃ m, buildSocialTree guests = some m ∧ ∀ g ∈ guests, (mLookup m g.id).isSome := by
  obtain ⟨m, hm, _, hcov⟩ := buildSocialTree_sound guests
  exact ⟨m, hm, hcov⟩

/-- CLAIM C7: for every guest list with unique ids (the data-model invariant
of spec §3) whose parent chains are acyclic, each guest's `level` in the
builder's output equals the number of parent edges from that guest to its
nearest root, and its stored chain has length `level + 1`. -/
theorem acyclic_level_correct (guests : List Guest)
    (huniq : (guests.map Guest.id).Nodup) (hacyc : AcyclicGuests guests) :
    ∀ g ∈ guests, ∃ m n, buildSocialTree guests = some m ∧ mLookup m g.id = some n ∧
      n.guest = g ∧ edgesToRoot guests g = some n.level ∧
      n.chain.length = n.level + 1 := by
  intro g hg
  obtain ⟨m, hm, hokE, hcov⟩ := buildSocialTree_sound guests
  obtain ⟨m₁, hm₁, hok₁⟩ :=
    buildLevels_correct guests huniq hacyc guests [] (fun _ h => h) (by simp)
  obtain ⟨m₂, hm₂, hok₂, hmono₂⟩ := influencePass_pres guests (EntryChainOK guests)
    (fun cid n hP => ⟨hP.1, hP.2.1, hP.2.2⟩) (fun cid n hP => ⟨hP.1, hP.2.1⟩)
    guests m₁ hok₁
  have hbst2 : buildSocialTree guests = some m₂ := by
    unfold buildSocialTree
    have hb : buildLevels (guestById guests) (guests.length + 1) guests = some m₁ := hm₁
    rw [hb]
    exact hm₂
  have hmeq : some m = some m₂ := by rw [← hm, hbst2]
  obtain rfl := Option.some.inj hmeq
  have hs := hcov g hg
  cases hml : mLookup m g.id with
  | none => rw [hml] at hs; simp at hs
  | some n =>
      obtain ⟨hk1, hk2, hk3⟩ := hok₂ _ (mLookup_eq_some_mem hml)
      simp only at hk1 hk2 hk3
      have hginj := (List.nodup_map_iff_inj_on (List.Nodup.of_map _ huniq)).mp huniq
      have hge : n.guest = g := hginj n.guest hk2 g hg hk1.symm
      obtain ⟨c, hc, hl, hcl⟩ := hk3
      rw [hge] at hc
      refine ⟨m, n, hm, hml, hge, ?_, by omega⟩
      unfold edgesToRoot
      rw [hc]
      simp only [Option.map_some', Option.some.injEq]
      omega

/-- Witness for `acyclic_level_correct`: a two-guest list (a root and its
invitee); the invitee's node has level 1 and a two-name chain. -/
theorem acyclic_level_correct_witness :
    ∃ m n, buildSocialTree [exRootGuest, exChildGuest] = some m ∧
      mLookup m exChildGuest.id = some n ∧ n.guest = exChildGuest ∧
      edgesToRoot [exRootGuest, exChildGuest] exChildGuest = some n.level ∧
      n.chain.length = n.level + 1 :=
  acyclic_level_correct [exRootGuest, exChildGuest] (by decide)
    (by unfold AcyclicGuests; decide) exChildGuest (by decide)

/-- CLAIM C3 (counterexample): for the self-parented guest (revisited within
its own ancestor-resolution chain) the builder's output node is NOT the
claimed root fallback: its stored node has `level = 1`, `chain = ["A"]`,
`childCount = 1` and `isRoot = false`, not `level = 0`, empty chain and
`isRoot = true`. -/
theorem cycle_output_counterexample :
    (buildSocialTree [selfLoopGuest]).bind (fun m => mLookup m "a")
      = some ⟨selfLoopGuest, 1, ["A"], 1, false⟩ := by decide

/-- CLAIM C3 (amended): the in-chain revisit fallback value (`level 0`,
empty chain, `isRoot true`) is only returned transiently to the recursive
caller and never stored; in the builder's output, a guest that is not a
predicate root and whose parent reference resolves — which is the case for
every guest revisited within its own ancestor-resolution chain — has
`isRoot = false`. -/
theorem cycle_guest_not_root_in_output (guests : List Guest)
    (huniq : (guests.map Guest.id).Nodup) (g : Guest) (hg : g ∈ guests)
    (hnr : isGuestRoot g = false) (hp : (resolveParent (guestById guests) g).isSome) :
    ∃ m n, buildSocialTree guests = some m ∧ mLookup m g.id = some n ∧
      n.guest = g ∧ n.isRoot = false := by
  obtain ⟨m, hm, hok, hcov⟩ := buildSocialTree_sound guests
  have hsome := hcov g hg
  cases hml : mLookup m g.id with
  | none => rw [hml] at hsome; simp at hsome
  | some n =>
      obtain ⟨hk1, hk2, hk3⟩ := hok _ (mLookup_eq_some_mem hml)
      have hguests : guests.Nodup := List.Nodup.of_map _ huniq
      have hinj := (List.nodup_map_iff_inj_on hguests).mp huniq
      have hng : n.guest = g := hinj n.guest hk2 g hg (by rw [← hk1])
      refine ⟨m, n, hm, hml, hng, ?_⟩
      rw [hk3, hng, hnr, hp]
      rfl

/-- Witness for `cycle_guest_not_root_in_output`: the self-parented guest. -/
theorem cycle_guest_not_root_in_output_witness :
    ∃ m n, buildSocialTree [selfLoopGuest] = some m ∧
      mLookup m selfLoopGuest.id = some n ∧
      n.guest = selfLoopGuest ∧ n.isRoot = false :=
  cycle_guest_not_root_in_output [selfLoopGuest] (by decide) selfLoopGuest
    (by decide) (by decide) (by decide)

/-- CLAIM C10: `execute`, `undo` and `redo` never modify the baseline state
or the baseline id sets; only `loadState` and `markAsSynced` assign them.
Consequently `getDeltas` after any mix of edit operations diffs the
then-current `present` against the baseline captured earlier. -/
theorem edit_ops_preserve_baseline (st : HookState) (ops : List EditOp) (s : AppState) :
    (ops.foldl applyEditOp st).baseline = st.baseline ∧
    (ops.foldl applyEditOp st).baselineIds = st.baselineIds ∧
    hookGetDeltas (ops.foldl applyEditOp st)
      = getDeltas (ops.foldl applyEditOp st).history.present st.baseline st.baselineIds ∧
    (hookLoadState st s).baseline = s ∧
    (hookLoadState st s).baselineIds = stateIds s ∧
    (hookMarkAsSynced st).baseline = st.history.present ∧
    (hookMarkAsSynced st).baselineIds = stateIds st.history.present := by
  have key : ∀ (l : List EditOp) (t : HookState),
      (l.foldl applyEditOp t).baseline = t.baseline ∧
      (l.foldl applyEditOp t).baselineIds = t.baselineIds := by
    intro l
    induction l with
    | nil => intro t; exact ⟨rfl, rfl⟩
    | cons op l ih => intro t; exact ih (applyEditOp t op)
  obtain ⟨hb, hi⟩ := key ops st
  exact ⟨hb, hi, by rw [hookGetDeltas, hb, hi], rfl, rfl, rfl, rfl⟩

/-- CLAIM C2 (counterexample): the current entity object (keys inserted as
`name, id`) is structurally equal to the baseline object (keys `id, name`)
— same key-value map — yet `getDeltas`' updated check, which compares
`JSON.stringify` output, reports it as updated. -/
theorem updated_key_order_counterexample :
    structEqJObj exCurrentObj exBaselineObj = true ∧
    (collectionDelta jObjId jsStringify ["1"] [exBaselineObj] [exCurrentObj]).updated
      = [exCurrentObj] := by
  constructor <;> decide

/-- CLAIM C2 (amended): an entity of `present` lands in the updated list iff
its id is in the baseline id set, a baseline entity with that id exists, and
the two `JSON.stringify` serializations (key-insertion-order sensitive)
differ — structural equality is not what is compared, so equal maps with
different key order are reported as updated. -/
theorem updated_iff_stringify_differs {α : Type} (entId : α → String)
    (stringify : α → String) (bIds : List String) (baseline current : List α) (x : α) :
    x ∈ (collectionDelta entId stringify bIds baseline current).updated ↔
      x ∈ current ∧ entId x ∈ bIds ∧
        ∃ b, entityLookup entId baseline (entId x) = some b ∧
          stringify x ≠ stringify b := by
  unfold collectionDelta
  simp only [List.mem_filter, Bool.and_eq_true]
  cases hl : entityLookup entId baseline (entId x) with
  | none => simp [hl]
  | some b => simp [hl, bne_iff_ne, and_assoc]

/-- CLAIM C5 (counterexample): a delta with exactly four
created/updated/deleted entries across the three collections, a set budget
delta, and a current state of ten entities. The claim's totalChanges is 4
and 4 < 10 · 0.5, so the claim predicts a delta sync; the code also counts
the budget change (5 < 5 fails) and performs a full sync. -/
theorem sync_threshold_counterexample :
    exMixedDelta.guests.created.length + exMixedDelta.guests.updated.length
      + exMixedDelta.guests.deleted.length
      + exMixedDelta.guestGroups.created.length + exMixedDelta.guestGroups.updated.length
      + exMixedDelta.guestGroups.deleted.length
      + exMixedDelta.expenses.created.length + exMixedDelta.expenses.updated.length
      + exMixedDelta.expenses.deleted.length = 4 ∧
    totalItemsOf exTenItemState = 10 ∧
    syncTransferOf exMixedDelta exTenItemState = .fullSync := by
  refine ⟨by decide, by decide, by decide⟩

/-- CLAIM C5 (amended): the code's `totalChanges` counts the nine
collection deltas plus one when the budget delta is set; a delta transfer is
chosen iff `totalChanges` is positive and `totalChanges < totalItems · 0.5`,
a full transfer iff `totalChanges` is positive and the threshold fails, and
nothing is sent when `totalChanges = 0`. With an unchanged budget, ten items
and four changes yield delta sync and six changes yield full sync. -/
theorem sync_threshold_amended (d : DeltaChanges) (s : AppState) :
    (syncTransferOf d s = .deltaSync ↔
        0 < totalChangesOf d ∧ 2 * totalChangesOf d < totalItemsOf s) ∧
    (syncTransferOf d s = .fullSync ↔
        0 < totalChangesOf d ∧ totalItemsOf s ≤ 2 * totalChangesOf d) ∧
    (syncTransferOf d s = .noTransfer ↔ totalChangesOf d = 0) ∧
    syncTransferOf exSmallDelta exTenItemState = .deltaSync ∧
    syncTransferOf exLargeDelta exTenItemState = .fullSync := by
  refine ⟨?_, ?_, ?_, by decide, by decide⟩
  all_goals unfold syncTransferOf useDeltaSyncOf
  all_goals split_ifs with h1 h2 <;> simp_all <;> omega

end WeedingPro
